import Mathlib

/-!
Verification of the code-splitter pipeline (phases 1-5 and the agent
orchestrator) against its specification.  The Python sources are embedded
shallowly: every definition below mirrors one function of the repository,
keeping the source names (camel-cased where Python uses underscores).
Floating-point thresholds of the source (0.5, 1.5, 2x) are modelled as exact
rationals; every such constant except 0.7 is exactly representable as a
binary double, so the rational model agrees with the float code away from
the 0.7-boundary, which no concrete input below touches.
-/

/-- Change kinds, mirroring the Literal type of models.Change.type. -/
inductive ChangeType where
  | add
  | modify
  | delete
deriving DecidableEq, Repr

/-- models.Change.  The symbols list keeps only the symbol names: the
embedded splitter functions read nothing else of a Symbol (the raw hunk
content is likewise unused by the splitter and is handled separately by the
digest functions, which work on plain strings). -/
structure Change where
  id : String
  file : String
  hunk_id : Nat
  type : ChangeType
  symbols : List String
  line_range : Nat × Nat
  added_lines : Nat
  deleted_lines : Nat
deriving DecidableEq, Repr

/-- models.Dependency: source depends on target.  Strength is a rational
standing for the Python float. -/
structure Dependency where
  source : String
  target : String
  type : String
  strength : Rat
  reason : String
deriving DecidableEq, Repr

/-- models.AtomicGroup. -/
structure AtomicGroup where
  id : String
  change_ids : List String
  reason : String
deriving DecidableEq, Repr

/-- models.SemanticGroup (cohesion_score and description are never read by
the splitter, only the id and the member list are). -/
structure SemanticGroup where
  id : String
  change_ids : List String
deriving DecidableEq, Repr

/-- models.Patch. -/
structure Patch where
  id : Nat
  name : String
  description : String
  changes : List String
  depends_on : List Nat
  size_lines : Nat
  warnings : List String
deriving DecidableEq, Repr

/-- Split a character list on a separator character; mirrors Python
str.split(sep) which returns one (possibly empty) field per separator gap. -/
def splitCharList (sep : Char) : List Char → List (List Char)
  | [] => [[]]
  | c :: cs =>
      let r := splitCharList sep cs
      if c = sep then [] :: r
      else
        match r with
        | h :: t => (c :: h) :: t
        | [] => [[c]]

/-- Python str.split(sep) for a single-character separator, as an executable
structural recursion (the core String.splitOn does not reduce in the
kernel). -/
def pySplit (sep : Char) (s : String) : List String :=
  (splitCharList sep s.toList).map (fun l => ⟨l⟩)

/-- Python str.startswith, as a structural computation. -/
def strStartsWith (s pre : String) : Bool :=
  pre.toList.isPrefixOf s.toList

/-- Join character lists with a single separator character between
consecutive elements. -/
def joinChar (sep : Char) : List (List Char) → List Char
  | [] => []
  | [l] => l
  | l :: l2 :: t => l ++ sep :: joinChar sep (l2 :: t)

/-- Join strings with a single-character separator (Python sep.join). -/
def strJoin (sep : Char) (ls : List String) : String :=
  ⟨joinChar sep (ls.map String.toList)⟩

/-- Decide whether one character list occurs contiguously inside another. -/
def listIsInfixOf (needle : List Char) : List Char → Bool
  | [] => needle.isPrefixOf []
  | c :: t => needle.isPrefixOf (c :: t) || listIsInfixOf needle t

/-- Python substring membership test (the in operator on strings). -/
def strContains (hay needle : String) : Bool :=
  listIsInfixOf needle.toList hay.toList

/-- Python str.lower restricted to ASCII case mapping. -/
def strLower (s : String) : String :=
  ⟨s.toList.map Char.toLower⟩

/-- Python str.lstrip(chars): drop leading characters as long as they belong
to the given character set. -/
def pyLstrip (chars : List Char) (s : String) : String :=
  ⟨s.toList.dropWhile (fun c => c ∈ chars)⟩

/-- Python str.rstrip() with no argument: drop trailing whitespace. -/
def pyRstrip (s : String) : String :=
  ⟨(s.toList.reverse.dropWhile Char.isWhitespace).reverse⟩

/-- DiffParser.parse_diff, lines 31-35: the canonical file path of a file
block is computed from unidiff target_file and source_file via
target_file.lstrip of the character set "b/", falling back to
source_file.lstrip of the set "a/" when the stripped target is empty or
equals /dev/null. -/
def parseDiffFilePath (source_file target_file : String) : String :=
  let file_path := pyLstrip [bChar, slashChar] target_file
  if file_path = "" || file_path = "/dev/null" then
    pyLstrip [aChar, slashChar] source_file
  else
    file_path
where
  bChar : Char := 'b'
  aChar : Char := 'a'
  slashChar : Char := '/'

/-- DiffParser._determine_change_type_from_hunk: modify when both counts are
positive, add when only additions, delete otherwise. -/
def determineChangeTypeFromHunk (added removed : Nat) : ChangeType :=
  let has_additions := added > 0
  let has_deletions := removed > 0
  if has_additions && has_deletions then ChangeType.modify
  else if has_additions then ChangeType.add
  else ChangeType.delete

/-- agent.calculate_hunk_digest, normalization part: split the hunk content
on newlines, drop empty lines and lines starting with the at-at hunk marker,
right-trim every remaining line and join with newlines.  The Python code
then applies MD5 to this string; MD5 is a fixed deterministic function, so
the digest is modelled by the normalized string itself (equality of
normalized strings is equality of digests; MD5 collisions are not
modelled). -/
def calculateHunkDigest (content : String) : String :=
  let lines := pySplit newlineChar content
  let change_lines :=
    (lines.filter (fun l => !(l = "") && !(strStartsWith l "@@"))).map pyRstrip
  strJoin newlineChar change_lines
where
  newlineChar : Char := Char.ofNat 10

/-- Scanner state of agent.extract_hunks_from_patch_file. -/
structure ExtractState where
  current_file : Option String
  current_hunk_lines : List String
  in_hunk : Bool
  acc : List (String × String × String)
deriving Repr

/-- Python truthiness of the pair (current_hunk_lines, current_file): the
hunk-line list is nonempty and the file is neither None nor the empty
string. -/
def extractPending (st : ExtractState) : Bool :=
  !(st.current_hunk_lines = []) &&
    (match st.current_file with
     | some f => !(f = "")
     | none => false)

/-- Emit the pending hunk of agent.extract_hunks_from_patch_file, when both
a current file and pending hunk lines exist. -/
def extractEmit (st : ExtractState) : List (String × String × String) :=
  if extractPending st then
    let hunk_content := strJoin (Char.ofNat 10) st.current_hunk_lines
    st.acc ++ [(st.current_file.getD "", hunk_content, calculateHunkDigest hunk_content)]
  else st.acc

/-- One line of the agent.extract_hunks_from_patch_file loop. -/
def extractStep (st : ExtractState) (line : String) : ExtractState :=
  if strStartsWith line "#" then st
  else if strStartsWith line "diff --git" then
    let acc := extractEmit st
    let hunk_lines := if extractPending st then [] else st.current_hunk_lines
    let parts := pySplit spaceChar line
    let current_file :=
      if parts.length ≥ 4 then some (pyLstrip [bChar, slashChar] parts[3]!)
      else st.current_file
    { current_file := current_file, current_hunk_lines := hunk_lines,
      in_hunk := false, acc := acc }
  else if strStartsWith line "index " || strStartsWith line "--- " ||
      strStartsWith line "+++ " then st
  else if strStartsWith line "@@" then
    let acc := extractEmit st
    { st with current_hunk_lines := [line], in_hunk := true, acc := acc }
  else if st.in_hunk then
    { st with current_hunk_lines := st.current_hunk_lines ++ [line] }
  else st
where
  bChar : Char := 'b'
  slashChar : Char := '/'
  spaceChar : Char := ' '

/-- agent.extract_hunks_from_patch_file: split a patch file into
(file, hunk content, digest) triples. -/
def extractHunksFromPatchFile (patch_content : String) : List (String × String × String) :=
  let init : ExtractState :=
    { current_file := none, current_hunk_lines := [], in_hunk := false, acc := [] }
  extractEmit ((pySplit (Char.ofNat 10) patch_content).foldl extractStep init)

/-- The digests of all hunks of a patch file, in order (with multiplicity). -/
def hunkDigestList (content : String) : List String :=
  (extractHunksFromPatchFile content).map (fun h => h.2.2)

/-- agent._verify_hunk_integrity, comparison part: the input digests and the
output digests are collected into dictionaries keyed by digest (collapsing
multiplicity), and the reported missing/spurious digests are the set
differences of the key sets.  Returns (input_only, output_only). -/
def verifyHunkIntegrity (original_diff : String) (patch_contents : List String) :
    List String × List String :=
  let input_digests := (hunkDigestList original_diff).dedup
  let output_digests := (patch_contents.flatMap hunkDigestList).dedup
  (input_digests.filter (fun d => d ∉ output_digests),
   output_digests.filter (fun d => d ∉ input_digests))

/-- Line-level view of calculate_hunk_digest: drop empty lines and at-at
header lines, right-trim the rest, join with newlines. -/
def hunkDigestOfLines (lines : List String) : String :=
  strJoin (Char.ofNat 10)
    ((lines.filter (fun l => !(l = "") && !(strStartsWith l "@@"))).map pyRstrip)

/-- Concrete original diff for the integrity-check analysis: the same hunk
body appears in two file blocks, so its digest occurs twice in the input
multiset. -/
def c7InputDiff : String :=
  "diff --git a/x.py b/x.py\nindex 111..222 100644\n--- a/x.py\n+++ b/x.py\n@@ -1,0 +1,1 @@\n+hello\ndiff --git a/y.py b/y.py\nindex 333..444 100644\n--- a/y.py\n+++ b/y.py\n@@ -5,0 +5,1 @@\n+hello\n"

/-- Concrete emitted patch file for the integrity-check analysis: it
contains the duplicated hunk body only once. -/
def c7OutputPatch : String :=
  "# Patch one\n\ndiff --git a/x.py b/x.py\nindex 1234567..abcdefg 100644\n--- a/x.py\n+++ b/x.py\n@@ -1,0 +1,1 @@\n+hello\n"

/-- One entry of the missing_dependencies list of the JSON object returned
by LLMClient.analyze_dependencies (strength and reason may be absent, the
agent reads them with .get defaults). -/
structure ProposedDependency where
  source : String
  target : String
  strength : Option Rat
  reason : Option String
deriving DecidableEq, Repr

/-- The analyze_dependencies response as consumed by the agent: a dict with
an error key, or a dict whose missing_dependencies list is as given (an
absent key reads as the empty list). -/
inductive LLMAnalysis where
  | error (msg : String)
  | ok (missing_dependencies : List ProposedDependency)
deriving DecidableEq, Repr

/-- CodeSplitterAgent._enhance_dependencies_with_llm, validation part: on an
error response the dependency list is returned unchanged; otherwise each
proposed dependency is appended as a call_chain edge with default strength
0.8 unless its source or target contains a wildcard character.  (The Python
function also builds prompt summaries from the change list, which play no
role in the validation and are omitted; 0.8 is modelled as the rational
4/5.) -/
def enhanceDependenciesWithLLM (dependencies : List Dependency)
    (analysis : LLMAnalysis) : List Dependency :=
  match analysis with
  | LLMAnalysis.error _ => dependencies
  | LLMAnalysis.ok missing =>
      dependencies ++
        ((missing.filter (fun d =>
            !(strContains d.source "*" || strContains d.target "*"))).map
          (fun d =>
            { source := d.source, target := d.target, type := "call_chain",
              strength := d.strength.getD (4 / 5),
              reason := d.reason.getD "Identified by LLM" }))

/-- Changes parsed from a one-change input diff, for the enhancement
analysis: the only change id is a.py:hunk_0. -/
def c8Changes : List Change :=
  [{ id := "a.py:hunk_0", file := "a.py", hunk_id := 0, type := ChangeType.modify,
     symbols := [], line_range := (1, 2), added_lines := 1, deleted_lines := 1 }]

/-- phase2_graph.DependencyGraph: the stored changes and dependency edges
(networkx node/edge attributes carry no information beyond these lists). -/
structure DependencyGraph where
  changes : List Change
  dependencies : List Dependency
deriving Repr

/-- The directed edges of the graph: one (source, target) pair per
dependency, as added by DependencyGraph.add_dependencies. -/
def graphEdges (deps : List Dependency) : List (String × String) :=
  deps.map (fun d => (d.source, d.target))

/-- The node set of the networkx graph: the ids added by add_changes plus
the endpoints automatically added by add_edge. -/
def graphNodes (g : DependencyGraph) : List String :=
  ((g.changes.map Change.id) ++
    g.dependencies.flatMap (fun d => [d.source, d.target])).dedup

/-- One breadth step of reachability: keep the accumulator and add the
target of every edge whose source is already reached. -/
def reachStep {α : Type} [DecidableEq α] (edges : List (α × α))
    (acc : List α) : List α :=
  (acc ++ (edges.filter (fun e => e.1 ∈ acc)).map (fun e => e.2)).dedup

/-- Iterated reachability steps. -/
def reachIter {α : Type} [DecidableEq α] (edges : List (α × α)) :
    Nat → List α → List α
  | 0, acc => acc
  | n + 1, acc => reachIter edges n (reachStep edges acc)

/-- All elements reachable by a step sequence can only come from the start
plus the edge targets; this list bounds the iteration. -/
def reachUniverse {α : Type} [DecidableEq α] (edges : List (α × α))
    (acc : List α) : List α :=
  (acc ++ edges.map (fun e => e.2)).dedup

/-- The set of vertices reachable from u along the directed edges (executable
model of the reachability networkx has_path decides). -/
def reachableSet {α : Type} [DecidableEq α] (edges : List (α × α)) (u : α) :
    List α :=
  reachIter edges (reachUniverse edges [u]).length [u]

/-- networkx has_path on the change graph (both endpoints assumed present;
DependencyGraph.can_changes_be_separated guards the NodeNotFound case
separately). -/
def hasPathF (g : DependencyGraph) (u v : String) : Bool :=
  v ∈ reachableSet (graphEdges g.dependencies) u

/-- DependencyGraph.can_changes_be_separated: not separable when there are
directed paths both ways, or a strength-1.0 dependency directly connects the
two changes in either orientation; a missing node (NodeNotFound) makes the
changes separable. -/
def canChangesBeSeparated (g : DependencyGraph) (id1 id2 : String) : Bool :=
  if id1 ∈ graphNodes g && id2 ∈ graphNodes g then
    let has_path_1_to_2 := hasPathF g id1 id2
    let has_path_2_to_1 := hasPathF g id2 id1
    if has_path_1_to_2 && has_path_2_to_1 then false
    else if g.dependencies.any (fun dep =>
        dep.strength ≥ 1 &&
          ((dep.source = id1 && dep.target = id2) ||
            (dep.source = id2 && dep.target = id1))) then false
    else true
  else true

/-- Nodes of the strong subgraph built by _find_strong_dependency_groups:
every change id, plus the endpoints of every strength-1.0 edge (networkx
add_edge inserts endpoints as nodes). -/
def strongGraphNodes (g : DependencyGraph) : List String :=
  ((g.changes.map Change.id) ++
    (g.dependencies.filter (fun d => d.strength ≥ 1)).flatMap
      (fun d => [d.source, d.target])).dedup

/-- Edges of the strong subgraph: only dependencies of strength at least
1.0. -/
def strongGraphEdges (g : DependencyGraph) : List (String × String) :=
  graphEdges (g.dependencies.filter (fun d => d.strength ≥ 1))

/-- Mutual reachability along the given edges. -/
def mutualReachF {α : Type} [DecidableEq α] (edges : List (α × α))
    (u v : α) : Bool :=
  v ∈ reachableSet edges u && u ∈ reachableSet edges v

/-- The strongly connected component of u, as the nodes mutually reachable
with u, in node order. -/
def sccOfF {α : Type} [DecidableEq α] (nodes : List α)
    (edges : List (α × α)) (u : α) : List α :=
  nodes.filter (fun v => mutualReachF edges u v)

/-- DependencyGraph._find_strong_dependency_groups: the strongly connected
components of the strength-at-least-1.0 subgraph that have more than one
member. -/
def findStrongDependencyGroups (g : DependencyGraph) : List (List String) :=
  let nodes := strongGraphNodes g
  let edges := strongGraphEdges g
  ((nodes.map (fun u => sccOfF nodes edges u)).dedup).filter
    (fun comp => comp.length > 1)

/-- Membership edge relation of an explicit edge list. -/
def EdgeMemRel {α : Type} (edges : List (α × α)) (a b : α) : Prop :=
  (a, b) ∈ edges

/-- A vertex list closed under following the given edges. -/
def ReachClosed {α : Type} (edges : List (α × α)) (l : List α) : Prop :=
  ∀ e ∈ edges, e.1 ∈ l → e.2 ∈ l

/-- The strength-1.0 edge relation of the dependency graph, as a
specification-level predicate: a dependency of strength at least 1.0 from a
to b. -/
def StrongEdgeRel (g : DependencyGraph) (a b : String) : Prop :=
  ∃ d ∈ g.dependencies, d.strength ≥ 1 ∧ d.source = a ∧ d.target = b

/-- Concrete graph for the one-way chain scenario: three changes with
strength-1.0 dependencies a depends on b, b depends on c, and no back
edges. -/
def c6ChainGraph : DependencyGraph :=
  { changes :=
      [{ id := "a.py:hunk_0", file := "a.py", hunk_id := 0,
         type := ChangeType.modify, symbols := [], line_range := (1, 2),
         added_lines := 1, deleted_lines := 0 },
       { id := "b.py:hunk_0", file := "b.py", hunk_id := 0,
         type := ChangeType.modify, symbols := [], line_range := (1, 2),
         added_lines := 1, deleted_lines := 0 },
       { id := "c.py:hunk_0", file := "c.py", hunk_id := 0,
         type := ChangeType.modify, symbols := [], line_range := (1, 2),
         added_lines := 1, deleted_lines := 0 }],
    dependencies :=
      [{ source := "a.py:hunk_0", target := "b.py:hunk_0",
         type := "defines_uses", strength := 1, reason := "a uses b" },
       { source := "b.py:hunk_0", target := "c.py:hunk_0",
         type := "defines_uses", strength := 1, reason := "b uses c" }] }

/-- Lexicographic comparison of character lists by code point, mirroring
Python string comparison (kernel-reducible, unlike the String order
instance). -/
def charListLe : List Char → List Char → Bool
  | [], _ => true
  | _ :: _, [] => false
  | a :: as, b :: bs =>
      if a.val < b.val then true
      else if b.val < a.val then false
      else charListLe as bs

/-- Python string less-or-equal. -/
def strLe (a b : String) : Bool :=
  charListLe a.toList b.toList

/-- Join strings with a multi-character separator (Python sep.join). -/
def strJoinS (sep : String) (ls : List String) : String :=
  ⟨List.intercalate sep.toList (ls.map String.toList)⟩

/-- Canonical representation of a Python set union: keep the left list and
append the unseen elements of the right one. -/
def pySetUnion (a b : List String) : List String :=
  a ++ b.filter (fun x => x ∉ a)

/-- Value a stale dict lookup would raise on; never reached under the
theorems' well-formedness hypotheses or on the concrete inputs below. -/
def defaultChange : Change :=
  { id := "", file := "", hunk_id := 0, type := ChangeType.modify,
    symbols := [], line_range := (0, 0), added_lines := 0, deleted_lines := 0 }

/-- change_map lookup (dict built insertion-wise from the change list; ids
are unique in every run considered, so first match equals last-wins). -/
def changeLookup (changes : List Change) (cid : String) : Change :=
  (changes.find? (fun c => c.id = cid)).getD defaultChange

/-- added_lines + deleted_lines of the change with the given id. -/
def changeSize (changes : List Change) (cid : String) : Nat :=
  (changeLookup changes cid).added_lines + (changeLookup changes cid).deleted_lines

/-- phase4_splitting.INTERFACE_PATTERNS. -/
def INTERFACE_PATTERNS : List String :=
  ["/model/", "/models/", "/types/", "/interfaces/", "/dto/",
   "interface.go", "types.go", "model.go", "models.go",
   "_interface.py", "_types.py", "_model.py", "_models.py",
   ".d.ts", "types.ts", "interfaces.ts",
   "result.go", "result.py"]

/-- phase4_splitting.UTIL_PATTERNS. -/
def UTIL_PATTERNS : List String :=
  ["/utils/", "/util/", "/helpers/", "/helper/", "/common/",
   "_utils.py", "_util.py", "_helper.py", "_helpers.py",
   "utils.go", "util.go", "helpers.go", "helper.go",
   "utils.ts", "util.ts", "helpers.ts", "helper.ts"]

/-- phase4_splitting.CONTROLLER_PATTERNS. -/
def CONTROLLER_PATTERNS : List String :=
  ["/controller/", "/controllers/", "/handler/", "/handlers/",
   "/api/", "/routes/", "/endpoints/",
   "_controller.py", "_handler.py", "_api.py",
   "controller.go", "handler.go",
   ".controller.ts", ".handler.ts"]

/-- any(pattern in file_path for pattern in patterns). -/
def matchesAny (file_path : String) (patterns : List String) : Bool :=
  patterns.any (fun p => strContains file_path p)

/-- A patch candidate dict of PatchSplitter.split_into_patches.  The Python
dict also carries name and description strings which no later computation
reads (_create_final_patches regenerates both), so they are omitted; the
change-id set is represented as a duplicate-free list. -/
structure PatchCandidate where
  change_ids : List String
  size : Nat
  atomic : Bool
deriving DecidableEq, Repr

/-- The sub-package (immediate parent directory path) of a change's file,
as computed in _split_by_layer. -/
def subpackageOf (changes : List Change) (cid : String) : String :=
  let parts := pySplit (Char.ofNat 47) (changeLookup changes cid).file
  if parts.length ≥ 2 then strJoinS "/" parts.dropLast else "root"

/-- Append a value under a key in an insertion-ordered association list,
mirroring a Python dict of lists. -/
def assocAppend (acc : List (String × List String)) (k v : String) :
    List (String × List String) :=
  if acc.any (fun e => e.1 = k) then
    acc.map (fun e => if e.1 = k then (e.1, e.2 ++ [v]) else e)
  else acc ++ [(k, [v])]

/-- State of the implementation-grouping loop of _split_by_layer. -/
structure ImplGroupState where
  impl_groups : List (List String × Nat)
  current_group : List String
  current_size : Nat
deriving Repr

/-- One sorted sub-package step of the implementation-grouping loop: a
sub-package at least half the target size becomes its own group (flushing
any accumulated small group first); otherwise small sub-packages accumulate
until exceeding 1.5 times the target.  The sizes are machine integers, and
comparing an integer against target*0.5 or target*1.5 is exact in binary
floating point, so the two float comparisons are written in the equivalent
cross-multiplied integer form (the equivalences are proved below as
half_target_iff and three_halves_iff). -/
def implGroupStep (changes : List Change) (target_size : Nat)
    (st : ImplGroupState) (item : String × List String) : ImplGroupState :=
  let subpkg_size := (item.2.map (changeSize changes)).sum
  if 2 * subpkg_size ≥ target_size then
    let groups1 :=
      if st.current_group ≠ [] then
        st.impl_groups ++ [(st.current_group, st.current_size)]
      else st.impl_groups
    { impl_groups := groups1 ++ [(item.2, subpkg_size)],
      current_group := [], current_size := 0 }
  else if 2 * (st.current_size + subpkg_size) > 3 * target_size then
    let groups1 :=
      if st.current_group ≠ [] then
        st.impl_groups ++ [(st.current_group, st.current_size)]
      else st.impl_groups
    { impl_groups := groups1, current_group := item.2,
      current_size := subpkg_size }
  else
    { st with
      current_group := st.current_group ++ item.2,
      current_size := st.current_size + subpkg_size }

/-- PatchSplitter._split_by_layer: bucket the given change ids into
interfaces, utilities, controllers and per-sub-package implementation
groups, in that fixed candidate order (candidate names are write-only and
omitted). -/
def splitByLayer (changes : List Change) (change_ids : List String)
    (target_size : Nat) : List PatchCandidate :=
  let present := change_ids.filter (fun cid => changes.any (fun c => c.id = cid))
  let isInterface := fun cid =>
    matchesAny (strLower (changeLookup changes cid).file) INTERFACE_PATTERNS
  let isUtil := fun cid =>
    matchesAny (strLower (changeLookup changes cid).file) UTIL_PATTERNS
  let isController := fun cid =>
    matchesAny (strLower (changeLookup changes cid).file) CONTROLLER_PATTERNS
  let interfaces := present.filter isInterface
  let utils := present.filter (fun cid => !isInterface cid && isUtil cid)
  let controllers := present.filter
    (fun cid => !isInterface cid && !isUtil cid && isController cid)
  let implChanges := present.filter
    (fun cid => !isInterface cid && !isUtil cid && !isController cid)
  let implementations := implChanges.foldl
    (fun acc cid => assocAppend acc (subpackageOf changes cid) cid) []
  let sortedImpl := implementations.mergeSort (fun a b => strLe a.1 b.1)
  let st := sortedImpl.foldl (implGroupStep changes target_size)
    { impl_groups := [], current_group := [], current_size := 0 }
  let impl_groups := st.impl_groups ++
    (if st.current_group ≠ [] then [(st.current_group, st.current_size)] else [])
  (if interfaces ≠ [] then
    [{ change_ids := interfaces.dedup,
       size := (interfaces.map (changeSize changes)).sum, atomic := false }]
   else []) ++
  (if utils ≠ [] then
    [{ change_ids := utils.dedup,
       size := (utils.map (changeSize changes)).sum, atomic := false }]
   else []) ++
  impl_groups.map (fun grp =>
    { change_ids := grp.1.dedup, size := grp.2, atomic := false }) ++
  (if controllers ≠ [] then
    [{ change_ids := controllers.dedup,
       size := (controllers.map (changeSize changes)).sum, atomic := false }]
   else [])

/-- The semantic-group ids reachable from a set of change ids through the
semantic map of _merge_patches (set of group ids, canonical order). -/
def semanticGroupIds (semantic_groups : List SemanticGroup)
    (cids : List String) : List String :=
  ((semantic_groups.filter (fun grp =>
      cids.any (fun cid => cid ∈ grp.change_ids))).map SemanticGroup.id).dedup

/-- PatchSplitter._calculate_semantic_similarity: Jaccard similarity of the
two semantic-group id sets, zero when either is empty. -/
def calculateSemanticSimilarity (semantic_groups : List SemanticGroup)
    (changes1 changes2 : List String) : Rat :=
  let groups1 := semanticGroupIds semantic_groups changes1
  let groups2 := semanticGroupIds semantic_groups changes2
  if groups1 = [] || groups2 = [] then 0
  else
    let intersection := groups1.filter (fun gid => gid ∈ groups2)
    let union := pySetUnion groups1 groups2
    if union = [] then 0
    else (intersection.length : Rat) / (union.length : Rat)

/-- The size lookup _can_merge_patches performs on self.graph.changes. -/
def graphChangeSize (g : DependencyGraph) (cid : String) : Nat :=
  changeSize g.changes cid

/-- PatchSplitter._can_merge_patches: merging is forced when some pair of
changes cannot be separated; otherwise the merge happens iff the combined
distinct-change size stays within 1.5 times the target and the semantic
similarity exceeds 0.5.  The size comparison against target*1.5 and the
Jaccard-similarity comparison against 0.5 are exact on these values, so both
are written in the equivalent cross-multiplied integer form (the
equivalences are proved below as three_halves_iff and
similarity_half_iff). -/
def canMergePatches (g : DependencyGraph) (semantic_groups : List SemanticGroup)
    (target_size : Nat) (patch1_changes patch2_changes : List String) : Bool :=
  if patch1_changes.any (fun c1 => patch2_changes.any
      (fun c2 => !(canChangesBeSeparated g c1 c2))) then true
  else
    let combined_changes := pySetUnion patch1_changes patch2_changes
    let combined_size := (combined_changes.map (graphChangeSize g)).sum
    if 2 * combined_size > 3 * target_size then false
    else
      let groups1 := semanticGroupIds semantic_groups patch1_changes
      let groups2 := semanticGroupIds semantic_groups patch2_changes
      if groups1 = [] || groups2 = [] then false
      else
        let intersection := groups1.filter (fun gid => gid ∈ groups2)
        let union := pySetUnion groups1 groups2
        if union = [] then false
        else 2 * intersection.length > union.length

/-- Inner loop of _merge_patches for one base candidate: scan the remaining
candidates in order, absorbing every one that can merge with the current
accumulated candidate (sets union, sizes add, atomic flags or) and keeping
the others for later outer iterations. -/
def absorbCandidates (g : DependencyGraph) (semantic_groups : List SemanticGroup)
    (target_size : Nat) :
    PatchCandidate → List PatchCandidate → PatchCandidate × List PatchCandidate
  | cur, [] => (cur, [])
  | cur, c :: rest =>
      if canMergePatches g semantic_groups target_size cur.change_ids c.change_ids then
        absorbCandidates g semantic_groups target_size
          { change_ids := pySetUnion cur.change_ids c.change_ids,
            size := cur.size + c.size,
            atomic := cur.atomic || c.atomic } rest
      else
        let p := absorbCandidates g semantic_groups target_size cur rest
        (p.1, c :: p.2)

/-- Fuel-indexed outer loop of _merge_patches; the fuel (initialized to the
candidate count) strictly exceeds the survivors at every level, so the
zero-fuel branch is unreachable. -/
def mergePatchesAux (g : DependencyGraph) (semantic_groups : List SemanticGroup)
    (target_size : Nat) : Nat → List PatchCandidate → List PatchCandidate
  | 0, cs => cs
  | _ + 1, [] => []
  | fuel + 1, c :: rest =>
      let p := absorbCandidates g semantic_groups target_size c rest
      p.1 :: mergePatchesAux g semantic_groups target_size fuel p.2

/-- PatchSplitter._merge_patches: left-to-right greedy pairwise merging with
a used set, expressed as a head-absorb recursion. -/
def mergePatches (g : DependencyGraph) (semantic_groups : List SemanticGroup)
    (target_size : Nat) (candidates : List PatchCandidate) : List PatchCandidate :=
  mergePatchesAux g semantic_groups target_size candidates.length candidates

/-- PatchSplitter._generate_patch_description (heuristic, no LLM): counts of
additions, modifications and deletions. -/
def generatePatchDescription (changes : List Change)
    (change_ids : List String) : String :=
  let cs := change_ids.map (changeLookup changes)
  let add_count := (cs.filter (fun c => c.type = ChangeType.add)).length
  let modify_count := (cs.filter (fun c => c.type = ChangeType.modify)).length
  let delete_count := (cs.filter (fun c => c.type = ChangeType.delete)).length
  let parts :=
    (if add_count ≠ 0 then [toString add_count ++ " additions"] else []) ++
    (if modify_count ≠ 0 then [toString modify_count ++ " modifications"] else []) ++
    (if delete_count ≠ 0 then [toString delete_count ++ " deletions"] else [])
  strJoinS ", " parts

/-- PatchSplitter._generate_patch_name without an LLM client: heuristic name
from the file and symbol sets of the patch's changes, plus the no_llm
description.  The enum parameter models CPython's iteration order on string
sets (list(files), list(symbols)), which depends on the per-process hash
seed; it is always a permutation of the canonical set list. -/
def generatePatchName (changes : List Change) (enum : List String → List String)
    (change_ids : List String) : String × String :=
  let cs := change_ids.map (changeLookup changes)
  let files := (cs.map Change.file).dedup
  let symbols := (cs.flatMap (fun c => c.symbols.take 3)).dedup
  let name :=
    if files.length = 1 then
      let file_name :=
        (((pySplit (Char.ofNat 47) ((enum files).headD "")).getLast?).getD "")
      if symbols ≠ [] then
        "Update " ++ file_name ++ ": " ++ strJoinS ", " ((enum symbols).take 2)
      else "Changes in " ++ file_name
    else
      if symbols ≠ [] then
        "Update " ++ strJoinS ", " ((enum symbols).take 2)
      else "Changes across " ++ toString files.length ++ " files"
  (name, "no_llm_" ++ generatePatchDescription changes change_ids)

/-- PatchSplitter._create_final_patches (no LLM): one Patch per merged
candidate, with id equal to its position, the change list obtained by
enumerating the candidate's change set, the size recomputed as the sum of
added plus deleted lines over that distinct-change list, and size warnings;
the accumulated candidate size is discarded. -/
def createFinalPatches (changes : List Change) (enum : List String → List String)
    (merged_patches : List PatchCandidate) : List Patch :=
  merged_patches.enum.map (fun p =>
    let change_ids := enum p.2.change_ids
    let size := (change_ids.map (changeSize changes)).sum
    let nd := generatePatchName changes enum change_ids
    let warnings :=
      (if size > 500 then ["Large patch: " ++ toString size ++ " lines"] else []) ++
      (if change_ids.length > 20 then
        ["Many changes: " ++ toString change_ids.length ++ " hunks"] else [])
    { id := p.1, name := nd.1, description := nd.2, changes := change_ids,
      depends_on := [], size_lines := size, warnings := warnings })

/-- DependencyGraph.get_dependencies_for_change: the graph predecessors of
the change (empty when the node is absent).  With edges pointing from
dependency source to target, the predecessors of c are the sources of
dependencies whose target is c — the changes that depend on c, despite the
function's docstring. -/
def getDependenciesForChange (g : DependencyGraph) (change_id : String) :
    List String :=
  if change_id ∈ graphNodes g then
    ((graphEdges g.dependencies).filter (fun e => e.2 = change_id)).map
      (fun e => e.1)
  else []

/-- PatchSplitter._patch_depends_on: some change of patch1 has some change of
patch2 among its get_dependencies_for_change results. -/
def patchDependsOn (g : DependencyGraph) (patch1 patch2 : Patch) : Bool :=
  patch1.changes.any (fun c1 =>
    patch2.changes.any (fun c2 => c2 ∈ getDependenciesForChange g c1))

/-- The edge list of the patch dependency graph built in
_sort_patches_topologically: an edge (p1.id, p2.id) for every ordered pair
of distinct positions with _patch_depends_on(p1, p2). -/
def patchGraphEdges (g : DependencyGraph) (patches : List Patch) :
    List (Nat × Nat) :=
  patches.enum.flatMap (fun p1 =>
    (patches.enum.filter (fun p2 =>
        p1.1 ≠ p2.1 && patchDependsOn g p1.2 p2.2)).map
      (fun p2 => (p1.2.id, p2.2.id)))

/-- Placeholder for a failed patch_map lookup; unreachable when the sorted
ids are a permutation of the patch ids. -/
def defaultPatch : Patch :=
  { id := 0, name := "", description := "", changes := [], depends_on := [],
    size_lines := 0, warnings := [] }

/-- ID renumbering tail of _sort_patches_topologically: for each position in
the sorted id order, the patch with that old id gets the position as its new
id and its depends_on list is the graph predecessors of its old id remapped
through the old-to-new table (entries without a mapping are skipped). -/
def renumberPatches (patches : List Patch) (prunedEdges : List (Nat × Nat))
    (sortedIds : List Nat) : List Patch :=
  sortedIds.enum.map (fun sid =>
    let patch := (patches.find? (fun p => p.id = sid.2)).getD defaultPatch
    let old_deps := (prunedEdges.filter (fun e => e.2 = sid.2)).map (fun e => e.1)
    { patch with
      id := sid.1,
      depends_on := (old_deps.filter (fun od => od ∈ sortedIds)).map
        (fun od => sortedIds.indexOf od) })

/-- PatchSplitter._sort_patches_topologically, with the networkx sort
modelled by two oracle arguments: sortedIds is the node order the library
produced (always a permutation of the patch ids) and prunedEdges is the
patch graph minus the edges removed by cycle breaking (equal to the full
patch graph when it is acyclic); on every non-exceptional code path
sortedIds is a topological order of prunedEdges.  The theorems state these
facts as hypotheses. -/
def sortPatchesTopologically (patches : List Patch)
    (prunedEdges : List (Nat × Nat)) (sortedIds : List Nat) : List Patch :=
  renumberPatches patches prunedEdges sortedIds

/-- A topological order: every edge source strictly precedes its target in
the order. -/
def IsTopoOrder (edges : List (Nat × Nat)) (order : List Nat) : Prop :=
  ∀ e ∈ edges, order.indexOf e.1 < order.indexOf e.2

/-- PatchSplitter.split_into_patches with the LLM disabled, up to and
including _create_final_patches (everything before the topological sort):
atomic groups become candidates (layer-split when a large group meets the
new-feature heuristic), unassigned changes become layer or singleton
candidates, candidates are greedily merged and final patches are built.
Returns none when an atomic group names an id missing from the change map
(the Python code raises KeyError there).  enum models string-set iteration
order as in generatePatchName.  The new-feature test count > len*0.7 is
written cross-multiplied (seven_tenths_iff relates the forms); Python's 0.7
is a binary float marginally below 7/10, so the float and rational
comparisons agree except within one ulp of the boundary, far from every
input considered here. -/
def preSortPatches (g : DependencyGraph) (changes : List Change)
    (atomic_groups : List AtomicGroup) (semantic_groups : List SemanticGroup)
    (target_patch_size : Nat) (enum : List String → List String) :
    Option (List Patch) :=
  if atomic_groups.all (fun grp => grp.change_ids.all
      (fun cid => changes.any (fun c => c.id = cid))) then
    let new_file_count := (changes.filter (fun c => c.type = ChangeType.add)).length
    let is_new_feature := decide (10 * new_file_count > 7 * changes.length)
    let atomicCands := atomic_groups.flatMap (fun group =>
      let size := (group.change_ids.map (changeSize changes)).sum
      if is_new_feature && size > target_patch_size * 2 then
        let layer_patches := splitByLayer changes group.change_ids target_patch_size
        if layer_patches.length > 1 then layer_patches
        else [{ change_ids := group.change_ids.dedup, size := size, atomic := true }]
      else [{ change_ids := group.change_ids.dedup, size := size, atomic := true }])
    let assigned := atomic_groups.flatMap AtomicGroup.change_ids
    let unassigned_changes := changes.filter (fun c => c.id ∉ assigned)
    let layerCands :=
      if is_new_feature && unassigned_changes.length > 5 then
        splitByLayer changes (unassigned_changes.map Change.id) target_patch_size
      else []
    let assigned2 := assigned ++ layerCands.flatMap PatchCandidate.change_ids
    let looseCands := (changes.filter (fun c => c.id ∉ assigned2)).map (fun c =>
      { change_ids := [c.id], size := c.added_lines + c.deleted_lines,
        atomic := false })
    let candidates := atomicCands ++ layerCands ++ looseCands
    let merged := mergePatches g semantic_groups target_patch_size candidates
    some (createFinalPatches changes enum merged)
  else none

/-- PatchSplitter.split_into_patches with the LLM disabled: the pre-sort
patches followed by the topological renumbering, with the networkx sort
modelled by the sortedIds and prunedEdges oracles as in
sortPatchesTopologically. -/
def splitIntoPatches (g : DependencyGraph) (changes : List Change)
    (atomic_groups : List AtomicGroup) (semantic_groups : List SemanticGroup)
    (target_patch_size : Nat) (enum : List String → List String)
    (sortedIds : List Nat) (prunedEdges : List (Nat × Nat)) :
    Option (List Patch) :=
  (preSortPatches g changes atomic_groups semantic_groups target_patch_size
    enum).map
    (fun final => sortPatchesTopologically final prunedEdges sortedIds)

/-- Two id lists with no common member. -/
def IdsDisjoint (a b : List String) : Prop :=
  ∀ x ∈ a, x ∉ b

/-- Pairwise disjoint id lists. -/
def PairwiseDisjoint (ls : List (List String)) : Prop :=
  ls.Pairwise IdsDisjoint

/-- Equality of patches up to the order of the change list and the
(set-iteration-order dependent) heuristic name: ids, descriptions,
dependency lists, sizes and warnings agree, and the change lists are
permutations of each other. -/
def PatchUpToOrder (p q : Patch) : Prop :=
  p.id = q.id ∧ p.description = q.description ∧ p.changes.Perm q.changes ∧
    p.depends_on = q.depends_on ∧ p.size_lines = q.size_lines ∧
    p.warnings = q.warnings

/-- A minimal modify-type change used by the concrete scenarios below. -/
def mkCh (i f : String) (syms : List String) (a d : Nat) : Change :=
  { id := i, file := f, hunk_id := 0, type := ChangeType.modify,
    symbols := syms, line_range := (1, 1), added_lines := a, deleted_lines := d }

/-- Three changes whose dependencies run a2 -> b -> a1 while a1 and a2 share
a semantic feature group: the similarity merge puts a1 and a2 into one patch
and b into another, making the patch dependency graph cyclic. -/
def c1Changes : List Change :=
  [mkCh "a1.py:hunk_0" "a1.py" [] 5 5, mkCh "b.py:hunk_0" "b.py" [] 5 5,
   mkCh "a2.py:hunk_0" "a2.py" [] 5 5]

/-- b depends on a1 and a2 depends on b, both below the strength-1.0
inseparability threshold. -/
def c1Deps : List Dependency :=
  [{ source := "b.py:hunk_0", target := "a1.py:hunk_0", type := "defines_uses",
     strength := mkRat 4 5, reason := "b uses a1" },
   { source := "a2.py:hunk_0", target := "b.py:hunk_0", type := "defines_uses",
     strength := mkRat 4 5, reason := "a2 uses b" }]

def c1Graph : DependencyGraph := { changes := c1Changes, dependencies := c1Deps }

def c1Sem : List SemanticGroup :=
  [{ id := "feature_a", change_ids := ["a1.py:hunk_0", "a2.py:hunk_0"] }]

/-- Four independent changes for the atomic-group overlap scenario. -/
def c3Changes : List Change :=
  [mkCh "x.py:hunk_0" "x.py" [] 5 5, mkCh "c.py:hunk_0" "c.py" [] 5 5,
   mkCh "d.py:hunk_0" "d.py" [] 5 5, mkCh "e.py:hunk_0" "e.py" [] 5 5]

def c3Graph : DependencyGraph := { changes := c3Changes, dependencies := [] }

/-- Overlapping atomic groups: the change c belongs to two groups. -/
def c3Atomic : List AtomicGroup :=
  [{ id := "same_file_x", change_ids := ["x.py:hunk_0"], reason := "same file" },
   { id := "strong_dep_1", change_ids := ["c.py:hunk_0", "d.py:hunk_0"],
     reason := "strong dependency" },
   { id := "strong_dep_2", change_ids := ["c.py:hunk_0", "e.py:hunk_0"],
     reason := "strong dependency" }]

def c3Sem : List SemanticGroup :=
  [{ id := "feature_x", change_ids := ["x.py:hunk_0", "e.py:hunk_0"] }]

/-- Two same-file changes that merge into one patch, for the set-iteration
order scenario. -/
def c9Changes : List Change :=
  [mkCh "f.py:hunk_0" "f.py" ["alpha"] 3 0, mkCh "f.py:hunk_1" "f.py" ["beta"] 4 0]

def c9Graph : DependencyGraph := { changes := c9Changes, dependencies := [] }

def c9Sem : List SemanticGroup :=
  [{ id := "feature_f", change_ids := ["f.py:hunk_0", "f.py:hunk_1"] }]

/-- The same semantic group with one member fewer, as the order-sensitive
greedy symbol grouping of phase 3 can produce under a different string-set
iteration order (phase3_grouping.py builds group membership by iterating a
dict keyed from set iteration and marking ids processed greedily, so which
changes join a group depends on the per-process hash seed). -/
def c9SemB : List SemanticGroup :=
  [{ id := "feature_f", change_ids := ["f.py:hunk_0"] }]

/-- Two single-change patches with the dependency d -> c between their
changes, as produced by the splitter before the topological sort. -/
def w1Graph : DependencyGraph :=
  { changes := [mkCh "c.py:hunk_0" "c.py" [] 3 0, mkCh "d.py:hunk_0" "d.py" [] 4 0],
    dependencies := [{
      source := "d.py:hunk_0", target := "c.py:hunk_0",
      type := "defines_uses", strength := mkRat 9 10, reason := "d uses c" }] }

def w1P0 : Patch :=
  { id := 0, name := "Changes in c.py", description := "no_llm_1 modifications",
    changes := ["c.py:hunk_0"], depends_on := [], size_lines := 3,
    warnings := [] }

def w1P1 : Patch :=
  { id := 1, name := "Changes in d.py", description := "no_llm_1 modifications",
    changes := ["d.py:hunk_0"], depends_on := [], size_lines := 4,
    warnings := [] }

def w1Patches : List Patch := [w1P0, w1P1]

/-- Claim C4: for a file-deletion block the unidiff target path is
"/dev/null"; lstrip with the character set "b/" first removes the leading
slash, so the recorded path becomes "dev/null" and the dead equality test
never falls back to the source path "foo.py" as the spec requires.  The
same set-wise lstrip also mangles any target path starting with the letter
b: file "bar.py" is recorded as "ar.py". -/
theorem c4_file_path_divergence :
    parseDiffFilePath "a/foo.py" "/dev/null" = "dev/null" ∧
    parseDiffFilePath "a/foo.py" "/dev/null" ≠ "foo.py" ∧
    parseDiffFilePath "a/bar.py" "b/bar.py" = "ar.py" := by
  refine ⟨rfl, ?_, rfl⟩
  decide

/-- Claim C5, counterexample: a hunk with zero added and zero removed lines
is classified as delete by the code, not as modify as the claim states; in
particular delete does not require at least one removed line. -/
theorem c5_zero_zero_counterexample :
    determineChangeTypeFromHunk 0 0 = ChangeType.delete ∧
    determineChangeTypeFromHunk 0 0 ≠ ChangeType.modify := by
  exact ⟨rfl, by decide⟩

/-- Claim C5, amended: a hunk is classified add iff it has at least one
added and no removed line, modify iff it has both added and removed lines,
and delete iff it has no added lines (regardless of the removed count, so
also for an all-context hunk). -/
theorem c5_change_type_characterization (added removed : Nat) :
    (determineChangeTypeFromHunk added removed = ChangeType.add ↔
      0 < added ∧ removed = 0) ∧
    (determineChangeTypeFromHunk added removed = ChangeType.modify ↔
      0 < added ∧ 0 < removed) ∧
    (determineChangeTypeFromHunk added removed = ChangeType.delete ↔
      added = 0) := by
  unfold determineChangeTypeFromHunk
  rcases Nat.eq_zero_or_pos added with ha | ha <;>
    rcases Nat.eq_zero_or_pos removed with hr | hr <;>
      subst_vars <;> simp_all <;> omega

theorem dropWhile_append_of_all {α : Type} (p : α → Bool) (xs ys : List α)
    (h : ∀ x ∈ xs, p x) : (xs ++ ys).dropWhile p = ys.dropWhile p := by
  induction xs with
  | nil => rfl
  | cons x xs ih =>
      simp only [List.cons_append, List.dropWhile_cons, h x (by simp)]
      exact ih (fun a ha => h a (by simp [ha]))

theorem splitCharList_no_sep (sep : Char) (l : List Char) (h : sep ∉ l) :
    splitCharList sep l = [l] := by
  induction l with
  | nil => rfl
  | cons c cs ih =>
      have hc : ¬ c = sep := by rintro rfl; exact h (by simp)
      have hcs : sep ∉ cs := fun hm => h (by simp [hm])
      simp only [splitCharList, ih hcs]
      simp [hc]

theorem strToList_mk (l : List Char) : String.toList ⟨l⟩ = l := rfl

theorem splitCharList_append_sep (sep : Char) (l rest : List Char) (h : sep ∉ l) :
    splitCharList sep (l ++ sep :: rest) = l :: splitCharList sep rest := by
  induction l with
  | nil => simp [splitCharList]
  | cons c cs ih =>
      have hc : ¬ c = sep := by rintro rfl; exact h (by simp)
      have hcs : sep ∉ cs := fun hm => h (by simp [hm])
      rw [List.cons_append, splitCharList, ih hcs]
      simp [hc]

theorem pySplit_strJoin (sep : Char) (lines : List String)
    (hfree : ∀ l ∈ lines, sep ∉ l.toList) (hne : lines ≠ []) :
    pySplit sep (strJoin sep lines) = lines := by
  induction lines with
  | nil => exact absurd rfl hne
  | cons x t ih =>
      cases t with
      | nil =>
          simp only [pySplit, strJoin, joinChar, List.map, strToList_mk]
          rw [splitCharList_no_sep sep x.toList (hfree x (by simp))]
          rfl
      | cons y tt =>
          have hx : sep ∉ x.toList := hfree x (by simp)
          have ht : ∀ l ∈ y :: tt, sep ∉ l.toList :=
            fun l hl => hfree l (by simp [hl])
          simp only [pySplit, strJoin, List.map, joinChar, strToList_mk]
          rw [splitCharList_append_sep sep x.toList _ hx]
          simp only [List.map]
          have := ih ht (by simp)
          simp only [pySplit, strJoin, List.map, strToList_mk] at this
          rw [this]
          rfl

theorem strToList_append (s t : String) : (s ++ t).toList = s.toList ++ t.toList :=
  String.data_append s t

theorem str_ne_empty_iff (s : String) : s ≠ "" ↔ s.toList ≠ [] := by
  constructor
  · intro h hdata
    exact h (by cases s with | _ d => cases hdata; rfl)
  · intro h hs
    exact h (by rw [hs]; rfl)

theorem strAppend_ne_empty (l ws : String) (h : l ≠ "") : l ++ ws ≠ "" := by
  rw [str_ne_empty_iff] at h ⊢
  rw [strToList_append]
  intro hc
  rw [List.append_eq_nil] at hc
  exact h hc.1

theorem pyRstrip_append_whitespace (l ws : String)
    (h : ∀ c ∈ ws.toList, c.isWhitespace) :
    pyRstrip (l ++ ws) = pyRstrip l := by
  unfold pyRstrip
  rw [strToList_append, List.reverse_append,
    dropWhile_append_of_all Char.isWhitespace ws.toList.reverse l.toList.reverse
      (fun c hc => h c (List.mem_reverse.mp hc))]

theorem strStartsWith_atat_append_whitespace (l ws : String)
    (hws : ∀ c ∈ ws.toList, c.isWhitespace) (hl : l ≠ "") :
    strStartsWith (l ++ ws) "@@" = strStartsWith l "@@" := by
  unfold strStartsWith
  rw [strToList_append]
  rw [str_ne_empty_iff] at hl
  have hat : ("@@" : String).toList = ['@', '@'] := rfl
  rw [hat]
  match hli : l.toList with
  | [] => exact absurd hli hl
  | [c] =>
      cases hw : ws.toList with
      | nil => simp
      | cons w rest =>
          have hwsp : w.isWhitespace := hws w (by rw [hw]; simp)
          have hwne : ('@' == w) = false := by
            cases hbe : ('@' == w)
            · rfl
            · exfalso
              have heq : '@' = w := eq_of_beq hbe
              rw [← heq] at hwsp
              exact absurd hwsp (by decide)
          simp [List.isPrefixOf, hwne]
  | c1 :: c2 :: rest =>
      simp [List.isPrefixOf]

theorem hunkDigestOfLines_drop_header (h : String) (ls : List String)
    (hh : strStartsWith h "@@" = true) :
    hunkDigestOfLines (h :: ls) = hunkDigestOfLines ls := by
  simp [hunkDigestOfLines, List.filter_cons, hh]

theorem hunkDigestOfLines_drop_empty (ls1 ls2 : List String) :
    hunkDigestOfLines (ls1 ++ "" :: ls2) = hunkDigestOfLines (ls1 ++ ls2) := by
  simp [hunkDigestOfLines, List.filter_append, List.filter_cons]

theorem hunkDigestOfLines_rstrip_invariant (ls1 ls2 : List String) (l ws : String)
    (hws : ∀ c ∈ ws.toList, c.isWhitespace) (hl : l ≠ "") :
    hunkDigestOfLines (ls1 ++ (l ++ ws) :: ls2) = hunkDigestOfLines (ls1 ++ l :: ls2) := by
  have hne : l ++ ws ≠ "" := strAppend_ne_empty l ws hl
  have hsw : strStartsWith (l ++ ws) "@@" = strStartsWith l "@@" :=
    strStartsWith_atat_append_whitespace l ws hws hl
  have hstrip : pyRstrip (l ++ ws) = pyRstrip l := pyRstrip_append_whitespace l ws hws
  simp only [hunkDigestOfLines, List.filter_append, List.filter_cons, hsw, hne, hl,
    decide_False]
  cases hkeep : strStartsWith l "@@" with
  | true => simp
  | false => simp [hstrip]

theorem calculateHunkDigest_strJoin (lines : List String)
    (hfree : ∀ l ∈ lines, Char.ofNat 10 ∉ l.toList) :
    calculateHunkDigest (strJoin (Char.ofNat 10) lines) = hunkDigestOfLines lines := by
  cases hls : lines with
  | nil => rfl
  | cons x t =>
      show hunkDigestOfLines (pySplit (Char.ofNat 10) (strJoin (Char.ofNat 10) (x :: t))) =
        hunkDigestOfLines (x :: t)
      rw [pySplit_strJoin (Char.ofNat 10) (x :: t) (hls ▸ hfree) (by simp)]

/-- Claim C7, counterexample: the integrity check keys its digest
collections by digest in a dictionary and compares key sets, not multisets.
On an input diff whose duplicated hunk body appears twice (digest count 2)
while the emitted patches contain it once (count 1), the check reports no
missing and no spurious digests, contradicting the claimed multiset
comparison with counts. -/
theorem c7_multiset_counterexample :
    verifyHunkIntegrity c7InputDiff [c7OutputPatch] = ([], []) ∧
    (hunkDigestList c7InputDiff).count "+hello" = 2 ∧
    ([c7OutputPatch].flatMap hunkDigestList).count "+hello" = 1 :=
  ⟨rfl, rfl, rfl⟩

/-- Claim C7, amended: the hunk digest is a stable hash of the hunk content
after dropping at-at header lines and empty lines and right-trimming every
remaining (nonempty) line, so two hunks differing only in those respects
have equal digests; and the integrity check compares the SETS of distinct
digests between the input diff and the union of the emitted patch files
(multiplicities are not compared), reporting digests occurring only in the
input and digests occurring only in the output. -/
theorem c7_digest_set_comparison :
    (∀ (h : String) (ls : List String), strStartsWith h "@@" = true →
      hunkDigestOfLines (h :: ls) = hunkDigestOfLines ls) ∧
    (∀ ls1 ls2 : List String,
      hunkDigestOfLines (ls1 ++ "" :: ls2) = hunkDigestOfLines (ls1 ++ ls2)) ∧
    (∀ (ls1 ls2 : List String) (l ws : String),
      (∀ c ∈ ws.toList, c.isWhitespace) → l ≠ "" →
      hunkDigestOfLines (ls1 ++ (l ++ ws) :: ls2) =
        hunkDigestOfLines (ls1 ++ l :: ls2)) ∧
    (∀ lines : List String, (∀ l ∈ lines, Char.ofNat 10 ∉ l.toList) →
      calculateHunkDigest (strJoin (Char.ofNat 10) lines) = hunkDigestOfLines lines) ∧
    (∀ (diff : String) (patches : List String) (d : String),
      d ∈ (verifyHunkIntegrity diff patches).1 ↔
        d ∈ hunkDigestList diff ∧ d ∉ patches.flatMap hunkDigestList) ∧
    (∀ (diff : String) (patches : List String) (d : String),
      d ∈ (verifyHunkIntegrity diff patches).2 ↔
        d ∈ patches.flatMap hunkDigestList ∧ d ∉ hunkDigestList diff) := by
  refine ⟨hunkDigestOfLines_drop_header, hunkDigestOfLines_drop_empty,
    hunkDigestOfLines_rstrip_invariant, calculateHunkDigest_strJoin, ?_, ?_⟩
  · intro diff patches d
    simp [verifyHunkIntegrity, List.mem_filter, List.mem_dedup]
  · intro diff patches d
    simp [verifyHunkIntegrity, List.mem_filter, List.mem_dedup]

/-- Witness instantiating the amended digest statement at a concrete header
and hunk body. -/
theorem c7_digest_set_comparison_witness :
    hunkDigestOfLines ["@@ -1,0 +1,1 @@", "+hello"] = hunkDigestOfLines ["+hello"] :=
  c7_digest_set_comparison.1 "@@ -1,0 +1,1 @@" ["+hello"] (by decide)

/-- Claim C8: the enhancement step only drops proposed dependencies whose
source or target contains a wildcard; a dependency naming an id that is not
any parsed change id passes the filter and is appended (the in-code comment
says valid change ids are validated, but no such check exists), while an
error response leaves the list unchanged. -/
theorem c8_unknown_id_appended :
    (enhanceDependenciesWithLLM []
        (LLMAnalysis.ok [⟨"ghost.py:hunk_0", "a.py:hunk_0", none, none⟩])).map
        Dependency.source = ["ghost.py:hunk_0"] ∧
    "ghost.py:hunk_0" ∉ c8Changes.map Change.id ∧
    (enhanceDependenciesWithLLM []
        (LLMAnalysis.ok [⟨"*", "a.py:hunk_0", none, none⟩])) = [] ∧
    enhanceDependenciesWithLLM [] (LLMAnalysis.error "network error") = [] := by
  refine ⟨rfl, by decide, rfl, rfl⟩

theorem mem_reachStep {α : Type} [DecidableEq α] (edges : List (α × α))
    (acc : List α) (a : α) :
    a ∈ reachStep edges acc ↔
      a ∈ acc ∨ ∃ e ∈ edges, e.1 ∈ acc ∧ e.2 = a := by
  simp [reachStep, List.mem_filter]

theorem subset_reachStep {α : Type} [DecidableEq α] (edges : List (α × α))
    (acc : List α) (a : α) (h : a ∈ acc) : a ∈ reachStep edges acc :=
  (mem_reachStep edges acc a).mpr (Or.inl h)

theorem subset_reachIter {α : Type} [DecidableEq α] (edges : List (α × α)) :
    ∀ (n : Nat) (acc : List α) (a : α), a ∈ acc → a ∈ reachIter edges n acc := by
  intro n
  induction n with
  | zero => exact fun acc a h => h
  | succ n ih => exact fun acc a h => ih _ _ (subset_reachStep edges acc a h)

theorem reachIter_sound {α : Type} [DecidableEq α] (edges : List (α × α)) :
    ∀ (n : Nat) (acc : List α) (v : α), v ∈ reachIter edges n acc →
      ∃ a ∈ acc, Relation.ReflTransGen (EdgeMemRel edges) a v := by
  intro n
  induction n with
  | zero => exact fun acc v h => ⟨v, h, Relation.ReflTransGen.refl⟩
  | succ n ih =>
      intro acc v h
      obtain ⟨a, ha, hr⟩ := ih (reachStep edges acc) v h
      rcases (mem_reachStep edges acc a).mp ha with hacc | ⟨e, he, hsrc, htail⟩
      · exact ⟨a, hacc, hr⟩
      · subst htail
        refine ⟨e.1, hsrc,
          Relation.ReflTransGen.head (show EdgeMemRel edges e.1 e.2 from ?_) hr⟩
        unfold EdgeMemRel
        simpa using he

theorem reachStep_mem_of_closed {α : Type} [DecidableEq α]
    (edges : List (α × α)) (acc : List α) (hcl : ReachClosed edges acc)
    (x : α) : x ∈ reachStep edges acc ↔ x ∈ acc := by
  rw [mem_reachStep]
  constructor
  · rintro (h | ⟨e, he, hsrc, rfl⟩)
    · exact h
    · exact hcl e he hsrc
  · exact Or.inl

theorem reachClosed_congr {α : Type} (edges : List (α × α)) (l1 l2 : List α)
    (hset : ∀ x, x ∈ l1 ↔ x ∈ l2) (h : ReachClosed edges l1) :
    ReachClosed edges l2 :=
  fun e he hs => (hset e.2).mp (h e he ((hset e.1).mpr hs))

theorem reachIter_mem_of_closed {α : Type} [DecidableEq α]
    (edges : List (α × α)) :
    ∀ (n : Nat) (acc : List α), ReachClosed edges acc →
      ∀ x, x ∈ reachIter edges n acc ↔ x ∈ acc := by
  intro n
  induction n with
  | zero => exact fun acc _ x => Iff.rfl
  | succ n ih =>
      intro acc hcl x
      have hstepcl : ReachClosed edges (reachStep edges acc) :=
        reachClosed_congr edges acc _
          (fun y => (reachStep_mem_of_closed edges acc hcl y).symm) hcl
      rw [show reachIter edges (n + 1) acc = reachIter edges n (reachStep edges acc) from rfl,
        ih (reachStep edges acc) hstepcl x, reachStep_mem_of_closed edges acc hcl x]

theorem reachIter_closed {α : Type} [DecidableEq α] (edges : List (α × α))
    (U : Finset α) (htgt : ∀ e ∈ edges, e.2 ∈ U) :
    ∀ (n : Nat) (acc : List α), (∀ x ∈ acc, x ∈ U) →
      U.card ≤ acc.toFinset.card + n →
      ReachClosed edges (reachIter edges n acc) := by
  intro n
  induction n with
  | zero =>
      intro acc hsub hcard
      have hsubf : acc.toFinset ⊆ U := by
        intro x hx
        exact hsub x (List.mem_toFinset.mp hx)
      have : acc.toFinset = U :=
        Finset.eq_of_subset_of_card_le hsubf (by simpa using hcard)
      intro e he hs
      show e.2 ∈ reachIter edges 0 acc
      have : e.2 ∈ acc.toFinset := this ▸ htgt e he
      simpa using List.mem_toFinset.mp this
  | succ n ih =>
      intro acc hsub hcard
      by_cases hstab : ∀ x ∈ reachStep edges acc, x ∈ acc
      · have hcl : ReachClosed edges acc := by
          intro e he hs
          exact hstab e.2 ((mem_reachStep edges acc e.2).mpr
            (Or.inr ⟨e, he, hs, rfl⟩))
        have hstepcl : ReachClosed edges (reachStep edges acc) :=
          reachClosed_congr edges acc _
            (fun y => (reachStep_mem_of_closed edges acc hcl y).symm) hcl
        show ReachClosed edges (reachIter edges n (reachStep edges acc))
        exact reachClosed_congr edges (reachStep edges acc) _
          (fun y => (reachIter_mem_of_closed edges n (reachStep edges acc) hstepcl y).symm)
          hstepcl
      · push_neg at hstab
        obtain ⟨x, hx, hxnot⟩ := hstab
        have hss : acc.toFinset ⊂ (reachStep edges acc).toFinset := by
          constructor
          · intro y hy
            exact List.mem_toFinset.mpr
              (subset_reachStep edges acc y (List.mem_toFinset.mp hy))
          · intro hcon
            exact hxnot (List.mem_toFinset.mp (hcon (List.mem_toFinset.mpr hx)))
        have hcard2 : acc.toFinset.card + 1 ≤ (reachStep edges acc).toFinset.card :=
          Finset.card_lt_card hss
        have hsub2 : ∀ y ∈ reachStep edges acc, y ∈ U := by
          intro y hy
          rcases (mem_reachStep edges acc y).mp hy with h | ⟨e, he, _, rfl⟩
          · exact hsub y h
          · exact htgt e he
        exact ih (reachStep edges acc) hsub2 (by omega)

theorem reach_complete {α : Type} (edges : List (α × α)) (R : List α)
    (hcl : ReachClosed edges R) (a v : α)
    (h : Relation.ReflTransGen (EdgeMemRel edges) a v) (ha : a ∈ R) : v ∈ R := by
  induction h with
  | refl => exact ha
  | tail hab e ih => exact hcl _ e ih

theorem mem_reachableSet_iff {α : Type} [DecidableEq α]
    (edges : List (α × α)) (u v : α) :
    v ∈ reachableSet edges u ↔ Relation.ReflTransGen (EdgeMemRel edges) u v := by
  constructor
  · intro h
    obtain ⟨a, ha, hr⟩ := reachIter_sound edges _ [u] v h
    rcases List.mem_singleton.mp ha with rfl
    exact hr
  · intro h
    have hcl : ReachClosed edges (reachableSet edges u) := by
      apply reachIter_closed edges (reachUniverse edges [u]).toFinset
      · intro e he
        apply List.mem_toFinset.mpr
        simp only [reachUniverse, List.mem_dedup, List.mem_append, List.mem_map]
        exact Or.inr ⟨e, he, rfl⟩
      · intro x hx
        apply List.mem_toFinset.mpr
        rcases List.mem_singleton.mp hx with rfl
        simp [reachUniverse]
      · calc (reachUniverse edges [u]).toFinset.card
            ≤ (reachUniverse edges [u]).length := List.toFinset_card_le _
          _ ≤ [u].toFinset.card + (reachUniverse edges [u]).length := by simp
    exact reach_complete edges _ hcl u v h
      (subset_reachIter edges _ [u] u (List.mem_singleton.mpr rfl))

theorem mutualReachF_iff {α : Type} [DecidableEq α] (edges : List (α × α))
    (u v : α) :
    mutualReachF edges u v = true ↔
      Relation.ReflTransGen (EdgeMemRel edges) u v ∧
        Relation.ReflTransGen (EdgeMemRel edges) v u := by
  simp [mutualReachF, mem_reachableSet_iff]

theorem mem_sccOfF {α : Type} [DecidableEq α] (nodes : List α)
    (edges : List (α × α)) (u v : α) :
    v ∈ sccOfF nodes edges u ↔ v ∈ nodes ∧ mutualReachF edges u v = true := by
  simp [sccOfF, List.mem_filter]

theorem sccOfF_congr {α : Type} [DecidableEq α] (nodes : List α)
    (edges : List (α × α)) (u v : α)
    (huv : Relation.ReflTransGen (EdgeMemRel edges) u v)
    (hvu : Relation.ReflTransGen (EdgeMemRel edges) v u) :
    sccOfF nodes edges u = sccOfF nodes edges v := by
  apply List.filter_congr
  intro w _
  have hiff : mutualReachF edges u w = true ↔ mutualReachF edges v w = true := by
    rw [mutualReachF_iff, mutualReachF_iff]
    constructor
    · rintro ⟨h1, h2⟩
      exact ⟨Relation.ReflTransGen.trans hvu h1, Relation.ReflTransGen.trans h2 huv⟩
    · rintro ⟨h1, h2⟩
      exact ⟨Relation.ReflTransGen.trans huv h1, Relation.ReflTransGen.trans h2 hvu⟩
  cases h1 : mutualReachF edges u w <;> cases h2 : mutualReachF edges v w <;>
    simp_all

theorem one_lt_length_of_two_mem {α : Type} (l : List α) (u v : α)
    (hu : u ∈ l) (hv : v ∈ l) (hne : u ≠ v) : 1 < l.length := by
  match l with
  | [] => cases hu
  | [x] =>
      rcases List.mem_singleton.mp hu with rfl
      rcases List.mem_singleton.mp hv with rfl
      exact absurd rfl hne
  | x :: y :: t => simp

theorem strongEdge_mem_iff (g : DependencyGraph) (a b : String) :
    EdgeMemRel (strongGraphEdges g) a b ↔ StrongEdgeRel g a b := by
  simp only [EdgeMemRel, strongGraphEdges, graphEdges, StrongEdgeRel,
    List.mem_map, List.mem_filter]
  constructor
  · rintro ⟨d, hd, heq⟩
    rw [Prod.mk.injEq] at heq
    exact ⟨d, hd.1, by simpa using hd.2, heq.1, heq.2⟩
  · rintro ⟨d, hd, hs, h1, h2⟩
    exact ⟨d, ⟨hd, by simpa using hs⟩, by rw [h1, h2]⟩

theorem rtg_strong_iff (g : DependencyGraph) (a b : String) :
    Relation.ReflTransGen (EdgeMemRel (strongGraphEdges g)) a b ↔
      Relation.ReflTransGen (StrongEdgeRel g) a b := by
  constructor
  · exact Relation.ReflTransGen.mono (fun x y h => (strongEdge_mem_iff g x y).mp h)
  · exact Relation.ReflTransGen.mono (fun x y h => (strongEdge_mem_iff g x y).mpr h)

/-- Claim C6: the output of _find_strong_dependency_groups consists exactly
of the directed strongly connected components, of size greater than one, of
the subgraph with only strength-at-least-1.0 edges: every emitted group has
at least two members that are pairwise mutually reachable through strong
edges, every pair of distinct mutually strongly reachable nodes shares an
emitted group, and the one-way strength-1.0 chain a to b to c yields no
group at all. -/
theorem c6_strong_groups_are_directed_sccs (g : DependencyGraph) :
    (∀ comp ∈ findStrongDependencyGroups g, 2 ≤ comp.length ∧
      ∀ u ∈ comp, ∀ v ∈ comp,
        Relation.ReflTransGen (StrongEdgeRel g) u v ∧
          Relation.ReflTransGen (StrongEdgeRel g) v u) ∧
    (∀ u v : String, u ∈ strongGraphNodes g → v ∈ strongGraphNodes g →
      u ≠ v → Relation.ReflTransGen (StrongEdgeRel g) u v →
      Relation.ReflTransGen (StrongEdgeRel g) v u →
      ∃ comp ∈ findStrongDependencyGroups g, u ∈ comp ∧ v ∈ comp) ∧
    findStrongDependencyGroups c6ChainGraph = [] := by
  refine ⟨?_, ?_, by rfl⟩
  · intro comp hcomp
    rw [findStrongDependencyGroups] at hcomp
    obtain ⟨hmem, hlen⟩ := List.mem_filter.mp hcomp
    obtain ⟨u0, hu0, rfl⟩ := List.mem_map.mp (List.mem_dedup.mp hmem)
    refine ⟨by simpa using hlen, ?_⟩
    intro u hu v hv
    obtain ⟨-, hmu⟩ := (mem_sccOfF _ _ _ _).mp hu
    obtain ⟨-, hmv⟩ := (mem_sccOfF _ _ _ _).mp hv
    obtain ⟨h0u, hu0'⟩ := (mutualReachF_iff _ _ _).mp hmu
    obtain ⟨h0v, hv0'⟩ := (mutualReachF_iff _ _ _).mp hmv
    constructor
    · exact (rtg_strong_iff g u v).mp (Relation.ReflTransGen.trans hu0' h0v)
    · exact (rtg_strong_iff g v u).mp (Relation.ReflTransGen.trans hv0' h0u)
  · intro u v hu hv hne huv hvu
    have huv' := (rtg_strong_iff g u v).mpr huv
    have hvu' := (rtg_strong_iff g v u).mpr hvu
    refine ⟨sccOfF (strongGraphNodes g) (strongGraphEdges g) u, ?_, ?_, ?_⟩
    · rw [findStrongDependencyGroups]
      apply List.mem_filter.mpr
      constructor
      · exact List.mem_dedup.mpr (List.mem_map.mpr ⟨u, hu, rfl⟩)
      · have h1 : u ∈ sccOfF (strongGraphNodes g) (strongGraphEdges g) u :=
          (mem_sccOfF _ _ _ _).mpr ⟨hu, (mutualReachF_iff _ _ _).mpr
            ⟨Relation.ReflTransGen.refl, Relation.ReflTransGen.refl⟩⟩
        have h2 : v ∈ sccOfF (strongGraphNodes g) (strongGraphEdges g) u :=
          (mem_sccOfF _ _ _ _).mpr ⟨hv, (mutualReachF_iff _ _ _).mpr ⟨huv', hvu'⟩⟩
        simpa using one_lt_length_of_two_mem _ u v h1 h2 hne
    · exact (mem_sccOfF _ _ _ _).mpr ⟨hu, (mutualReachF_iff _ _ _).mpr
        ⟨Relation.ReflTransGen.refl, Relation.ReflTransGen.refl⟩⟩
    · exact (mem_sccOfF _ _ _ _).mpr ⟨hv, (mutualReachF_iff _ _ _).mpr ⟨huv', hvu'⟩⟩

/-- Witness instantiating the strong-SCC characterization: a two-change
cycle of strength-1.0 dependencies forms one group containing both
changes. -/
theorem c6_strong_groups_witness :
    ∃ comp ∈ findStrongDependencyGroups
      { changes := [], dependencies :=
          [{ source := "a", target := "b", type := "defines_uses",
             strength := 1, reason := "" },
           { source := "b", target := "a", type := "defines_uses",
             strength := 1, reason := "" }] },
      "a" ∈ comp ∧ "b" ∈ comp := by
  apply (c6_strong_groups_are_directed_sccs _).2.1 "a" "b"
  · decide
  · decide
  · decide
  · exact Relation.ReflTransGen.single
      ⟨{ source := "a", target := "b", type := "defines_uses", strength := 1,
         reason := "" }, by simp, by norm_num⟩
  · exact Relation.ReflTransGen.single
      ⟨{ source := "b", target := "a", type := "defines_uses", strength := 1,
         reason := "" }, by simp, by norm_num⟩

theorem idsDisjoint_symm (a b : List String) (h : IdsDisjoint a b) :
    IdsDisjoint b a :=
  fun x hx hxa => h x hxa hx

theorem idsDisjoint_nil_left (b : List String) : IdsDisjoint [] b :=
  fun x hx => absurd hx (List.not_mem_nil x)

theorem mem_assocAppend (acc : List (String × List String)) (k v x : String) :
    (∃ e ∈ assocAppend acc k v, x ∈ e.2) ↔
      (∃ e ∈ acc, x ∈ e.2) ∨ x = v := by
  unfold assocAppend
  by_cases hk : acc.any (fun e => e.1 = k)
  · simp only [hk, if_pos]
    constructor
    · rintro ⟨e, he, hx⟩
      obtain ⟨e0, he0, rfl⟩ := List.mem_map.mp he
      by_cases h0 : e0.1 = k
      · simp only [h0, if_pos] at hx
        rcases List.mem_append.mp hx with h | h
        · exact Or.inl ⟨e0, he0, h⟩
        · exact Or.inr (List.mem_singleton.mp h)
      · simp only [h0, if_neg, not_false_iff] at hx
        exact Or.inl ⟨e0, he0, hx⟩
    · rintro (⟨e, he, hx⟩ | rfl)
      · refine ⟨if e.1 = k then (e.1, e.2 ++ [v]) else e, List.mem_map.mpr ⟨e, he, rfl⟩, ?_⟩
        by_cases h0 : e.1 = k <;> simp [h0, hx]
      · rw [List.any_eq_true] at hk
        obtain ⟨e, he, hek⟩ := hk
        refine ⟨if e.1 = k then (e.1, e.2 ++ [x]) else e, List.mem_map.mpr ⟨e, he, rfl⟩, ?_⟩
        simp only [decide_eq_true_eq] at hek
        simp [hek]
  · simp only [hk, if_neg, not_false_iff]
    constructor
    · rintro ⟨e, he, hx⟩
      rcases List.mem_append.mp he with h | h
      · exact Or.inl ⟨e, h, hx⟩
      · rcases List.mem_singleton.mp h with rfl
        exact Or.inr (List.mem_singleton.mp hx)
    · rintro (⟨e, he, hx⟩ | rfl)
      · exact ⟨e, List.mem_append.mpr (Or.inl he), hx⟩
      · exact ⟨(k, [x]), List.mem_append.mpr (Or.inr (by simp)), by simp⟩

theorem assocAppend_keys_nodup (acc : List (String × List String)) (k v : String)
    (h : (acc.map Prod.fst).Nodup) :
    ((assocAppend acc k v).map Prod.fst).Nodup := by
  unfold assocAppend
  by_cases hk : acc.any (fun e => e.1 = k) = true
  · rw [if_pos hk]
    have heq : (acc.map (fun e => if e.1 = k then (e.1, e.2 ++ [v]) else e)).map Prod.fst =
        acc.map Prod.fst := by
      rw [List.map_map]
      apply List.map_congr_left
      intro e _
      by_cases h0 : e.1 = k <;> simp [h0]
    rw [heq]
    exact h
  · rw [if_neg hk, List.map_append]
    rw [List.nodup_append]
    refine ⟨h, by simp, ?_⟩
    intro a ha hb
    simp only [List.map_cons, List.map_nil, List.mem_singleton] at hb
    subst hb
    rw [List.any_eq_true] at hk
    obtain ⟨e, he, rfl⟩ := List.mem_map.mp ha
    exact hk ⟨e, he, by simp⟩

theorem assocAppend_grouped (changes : List Change)
    (acc : List (String × List String)) (v : String)
    (h : ∀ e ∈ acc, ∀ x ∈ e.2, subpackageOf changes x = e.1) :
    ∀ e ∈ assocAppend acc (subpackageOf changes v) v, ∀ x ∈ e.2,
      subpackageOf changes x = e.1 := by
  unfold assocAppend
  by_cases hk : acc.any (fun e => e.1 = subpackageOf changes v) = true
  · rw [if_pos hk]
    intro e he x hx
    obtain ⟨e0, he0, rfl⟩ := List.mem_map.mp he
    by_cases h0 : e0.1 = subpackageOf changes v
    · rw [if_pos h0] at hx ⊢
      rcases List.mem_append.mp hx with hh | hh
      · exact h e0 he0 x hh
      · rcases List.mem_singleton.mp hh with rfl
        exact h0.symm
    · rw [if_neg h0] at hx ⊢
      exact h e0 he0 x hx
  · rw [if_neg hk]
    intro e he x hx
    rcases List.mem_append.mp he with hh | hh
    · exact h e hh x hx
    · rcases List.mem_singleton.mp hh with rfl
      rcases List.mem_singleton.mp hx with rfl
      rfl

theorem assocFold_props (changes : List Change) (ids : List String) :
    ∀ acc : List (String × List String),
      (acc.map Prod.fst).Nodup →
      (∀ e ∈ acc, ∀ x ∈ e.2, subpackageOf changes x = e.1) →
      (((ids.foldl (fun a cid => assocAppend a (subpackageOf changes cid) cid)
          acc).map Prod.fst).Nodup ∧
       (∀ e ∈ ids.foldl (fun a cid => assocAppend a (subpackageOf changes cid) cid)
          acc, ∀ x ∈ e.2, subpackageOf changes x = e.1) ∧
       (∀ x, (∃ e ∈ ids.foldl
            (fun a cid => assocAppend a (subpackageOf changes cid) cid) acc,
            x ∈ e.2) ↔ (∃ e ∈ acc, x ∈ e.2) ∨ x ∈ ids)) := by
  induction ids with
  | nil => exact fun acc h1 h2 => ⟨h1, h2, by simp⟩
  | cons cid ids ih =>
      intro acc h1 h2
      have h1' := assocAppend_keys_nodup acc (subpackageOf changes cid) cid h1
      have h2' := assocAppend_grouped changes acc cid h2
      obtain ⟨r1, r2, r3⟩ := ih (assocAppend acc (subpackageOf changes cid) cid) h1' h2'
      refine ⟨r1, r2, ?_⟩
      intro x
      rw [List.foldl_cons] at *
      rw [r3 x, mem_assocAppend]
      constructor
      · rintro ((h | rfl) | h)
        · exact Or.inl h
        · exact Or.inr (by simp)
        · exact Or.inr (by simp [h])
      · rintro (h | h)
        · exact Or.inl (Or.inl h)
        · rcases List.mem_cons.mp h with rfl | h
          · exact Or.inl (Or.inr rfl)
          · exact Or.inr h

theorem assoc_entries_pairwise (changes : List Change)
    (l : List (String × List String)) (hn : (l.map Prod.fst).Nodup)
    (hg : ∀ e ∈ l, ∀ x ∈ e.2, subpackageOf changes x = e.1) :
    l.Pairwise (fun e1 e2 => IdsDisjoint e1.2 e2.2) := by
  have hp : l.Pairwise (fun e1 e2 => e1.1 ≠ e2.1) := List.pairwise_map.mp hn
  refine List.Pairwise.imp_of_mem ?_ hp
  intro e1 e2 h1 h2 hne x hx1 hx2
  exact hne ((hg e1 h1 x hx1).symm.trans (hg e2 h2 x hx2))

theorem pairwiseDisjoint_append (l1 l2 : List (List String)) :
    PairwiseDisjoint (l1 ++ l2) ↔
      PairwiseDisjoint l1 ∧ PairwiseDisjoint l2 ∧
        ∀ a ∈ l1, ∀ b ∈ l2, IdsDisjoint a b := by
  unfold PairwiseDisjoint
  rw [List.pairwise_append]

theorem implGroupStep_mem (changes : List Change) (target : Nat)
    (st : ImplGroupState) (item : String × List String) (x : String) :
    (x ∈ (implGroupStep changes target st item).current_group ∨
      ∃ gp ∈ (implGroupStep changes target st item).impl_groups, x ∈ gp.1) ↔
      (x ∈ st.current_group ∨ ∃ gp ∈ st.impl_groups, x ∈ gp.1) ∨ x ∈ item.2 := by
  classical
  unfold implGroupStep
  obtain ⟨gs, c, n⟩ := st
  simp only
  split_ifs with hbig hc hover hc2 <;>
    simp only [List.mem_append, List.mem_singleton, List.not_mem_nil,
      false_or, or_false, exists_eq_or_imp, exists_or, or_and_right] <;>
    aesop

theorem pairwiseDisjoint_snoc (ls : List (List String)) (v : List String) :
    PairwiseDisjoint (ls ++ [v]) ↔
      PairwiseDisjoint ls ∧ ∀ l ∈ ls, IdsDisjoint l v := by
  rw [pairwiseDisjoint_append]
  unfold PairwiseDisjoint
  simp only [List.pairwise_cons, List.Pairwise.nil, List.mem_singleton]
  constructor
  · rintro ⟨h1, -, h3⟩
    exact ⟨h1, fun l hl => h3 l hl v rfl⟩
  · rintro ⟨h1, h2⟩
    refine ⟨h1, ⟨fun b hb => absurd hb (List.not_mem_nil b), ?_⟩,
      fun a ha b hb => hb ▸ h2 a ha⟩
    simp

theorem idsDisjoint_nil_right (a : List String) : IdsDisjoint a [] :=
  fun x _ hx => absurd hx (List.not_mem_nil x)

theorem implGroupStep_disjoint (changes : List Change) (target : Nat)
    (st : ImplGroupState) (item : String × List String)
    (hinv : PairwiseDisjoint (st.impl_groups.map Prod.fst ++ [st.current_group]))
    (hsc : IdsDisjoint item.2 st.current_group)
    (hsg : ∀ l ∈ st.impl_groups.map Prod.fst, IdsDisjoint item.2 l) :
    PairwiseDisjoint
      ((implGroupStep changes target st item).impl_groups.map Prod.fst ++
        [(implGroupStep changes target st item).current_group]) := by
  classical
  unfold implGroupStep
  obtain ⟨gs, c, n⟩ := st
  simp only at hinv hsc hsg ⊢
  have hg : PairwiseDisjoint (gs.map Prod.fst) :=
    ((pairwiseDisjoint_append _ _).mp hinv).1
  have hcross : ∀ a ∈ gs.map Prod.fst, IdsDisjoint a c := by
    intro a ha
    exact ((pairwiseDisjoint_append _ _).mp hinv).2.2 a ha c
      (List.mem_singleton.mpr rfl)
  have hnl : ∀ a : List String, IdsDisjoint a [] := idsDisjoint_nil_right
  have hnr : ∀ a : List String, IdsDisjoint [] a := idsDisjoint_nil_left
  have hsc2 : IdsDisjoint c item.2 := idsDisjoint_symm _ _ hsc
  have hsg2 : ∀ l ∈ gs.map Prod.fst, IdsDisjoint l item.2 :=
    fun l hl => idsDisjoint_symm _ _ (hsg l hl)
  split_ifs with hbig hc hover hc2 <;>
    simp only [List.map_append, List.map_cons, List.map_nil, List.append_assoc,
      List.singleton_append, List.cons_append, List.nil_append] <;>
    rw [pairwiseDisjoint_append] <;>
    unfold PairwiseDisjoint <;>
    refine ⟨hg, ?_, ?_⟩ <;>
    simp only [List.pairwise_cons, List.mem_cons, List.mem_singleton,
      List.not_mem_nil, forall_eq_or_imp, forall_eq, List.Pairwise.nil,
      IsEmpty.forall_iff, forall_const, and_true, true_and] <;>
    try exact trivial
  · exact ⟨⟨hsc2, hnl c⟩, hnl item.2⟩
  · intro a ha
    exact ⟨hcross a ha, hsg2 a ha, hnl a⟩
  · exact hnl item.2
  · intro a ha
    exact ⟨hsg2 a ha, hnl a⟩
  · exact hsc2
  · intro a ha
    exact ⟨hcross a ha, hsg2 a ha⟩
  · intro a ha
    exact hsg2 a ha
  · intro a ha x hx hmem
    rcases List.mem_append.mp hmem with h | h
    · exact hcross a ha x hx h
    · exact hsg a ha x h hx

theorem implFold_props (changes : List Change) (target : Nat)
    (items : List (String × List String)) :
    ∀ st : ImplGroupState,
      PairwiseDisjoint (st.impl_groups.map Prod.fst ++ [st.current_group]) →
      (∀ i ∈ items, IdsDisjoint i.2 st.current_group ∧
        ∀ l ∈ st.impl_groups.map Prod.fst, IdsDisjoint i.2 l) →
      items.Pairwise (fun i1 i2 => IdsDisjoint i1.2 i2.2) →
      (PairwiseDisjoint
        (((items.foldl (implGroupStep changes target) st).impl_groups.map
          Prod.fst) ++
          [(items.foldl (implGroupStep changes target) st).current_group]) ∧
      (∀ x, (x ∈ (items.foldl (implGroupStep changes target) st).current_group ∨
          ∃ gp ∈ (items.foldl (implGroupStep changes target) st).impl_groups,
            x ∈ gp.1) ↔
        (x ∈ st.current_group ∨ ∃ gp ∈ st.impl_groups, x ∈ gp.1) ∨
          ∃ i ∈ items, x ∈ i.2)) := by
  induction items with
  | nil =>
      intro st h1 _ _
      exact ⟨h1, fun x => by simp⟩
  | cons item rest ih =>
      intro st h1 h2 h3
      have hstep1 : IdsDisjoint item.2 st.current_group :=
        (h2 item (by simp)).1
      have hstep2 : ∀ l ∈ st.impl_groups.map Prod.fst, IdsDisjoint item.2 l :=
        (h2 item (by simp)).2
      have hinv2 := implGroupStep_disjoint changes target st item h1 hstep1 hstep2
      have hmem2 := implGroupStep_mem changes target st item
      have hpair : ∀ i ∈ rest, IdsDisjoint item.2 i.2 := by
        intro i hi
        exact (List.pairwise_cons.mp h3).1 i hi
      have hsep2 : ∀ i ∈ rest,
          IdsDisjoint i.2 (implGroupStep changes target st item).current_group ∧
          ∀ l ∈ (implGroupStep changes target st item).impl_groups.map Prod.fst,
            IdsDisjoint i.2 l := by
        intro i hi
        have key : ∀ x ∈ i.2,
            ¬ (x ∈ (implGroupStep changes target st item).current_group ∨
              ∃ gp ∈ (implGroupStep changes target st item).impl_groups,
                x ∈ gp.1) := by
          intro x hx hcon
          rcases (hmem2 x).mp hcon with (hst | ⟨gp, hgp, hxg⟩) | hit
          · exact (h2 i (by simp [hi])).1 x hx hst
          · exact (h2 i (by simp [hi])).2 gp.1 (List.mem_map.mpr ⟨gp, hgp, rfl⟩) x hx hxg
          · exact hpair i hi x hit hx
        constructor
        · intro x hx hcur
          exact key x hx (Or.inl hcur)
        · intro l hl x hx hxl
          obtain ⟨gp, hgp, rfl⟩ := List.mem_map.mp hl
          exact key x hx (Or.inr ⟨gp, hgp, hxl⟩)
      obtain ⟨r1, r2⟩ := ih (implGroupStep changes target st item) hinv2 hsep2
        (List.pairwise_cons.mp h3).2
      refine ⟨r1, ?_⟩
      intro x
      rw [List.foldl_cons] at *
      rw [r2 x, hmem2 x]
      simp only [List.mem_cons]
      constructor
      · rintro ((h | h) | h)
        · exact Or.inl h
        · exact Or.inr ⟨item, Or.inl rfl, h⟩
        · obtain ⟨i, hi, hxi⟩ := h
          exact Or.inr ⟨i, Or.inr hi, hxi⟩
      · rintro (h | ⟨i, hi | hi, hxi⟩)
        · exact Or.inl (Or.inl h)
        · exact Or.inl (Or.inr (hi ▸ hxi))
        · exact Or.inr ⟨i, hi, hxi⟩

theorem exists_mem_append_cand (l1 l2 : List PatchCandidate) (x : String) :
    (∃ c ∈ l1 ++ l2, x ∈ c.change_ids) ↔
      (∃ c ∈ l1, x ∈ c.change_ids) ∨ (∃ c ∈ l2, x ∈ c.change_ids) := by
  constructor
  · rintro ⟨c, hc, hx⟩
    rcases List.mem_append.mp hc with h | h
    · exact Or.inl ⟨c, h, hx⟩
    · exact Or.inr ⟨c, h, hx⟩
  · rintro (⟨c, hc, hx⟩ | ⟨c, hc, hx⟩)
    · exact ⟨c, List.mem_append.mpr (Or.inl hc), hx⟩
    · exact ⟨c, List.mem_append.mpr (Or.inr hc), hx⟩

theorem exists_mem_optBlock (l : List String) (sz : Nat) (x : String) :
    (∃ c ∈ (if l ≠ [] then
        [({ change_ids := l.dedup, size := sz, atomic := false } : PatchCandidate)]
      else []), x ∈ c.change_ids) ↔ x ∈ l := by
  by_cases h : l = []
  · subst h
    simp
  · rw [if_pos h]
    simp [List.mem_dedup]

theorem exists_mem_implBlock (gps : List (List String × Nat)) (x : String) :
    (∃ c ∈ gps.map (fun grp =>
        ({ change_ids := grp.1.dedup, size := grp.2, atomic := false } :
          PatchCandidate)), x ∈ c.change_ids) ↔ ∃ gp ∈ gps, x ∈ gp.1 := by
  constructor
  · rintro ⟨c, hc, hx⟩
    obtain ⟨gp, hgp, rfl⟩ := List.mem_map.mp hc
    exact ⟨gp, hgp, List.mem_dedup.mp hx⟩
  · rintro ⟨gp, hgp, hx⟩
    exact ⟨_, List.mem_map.mpr ⟨gp, hgp, rfl⟩, List.mem_dedup.mpr hx⟩

theorem exists_mem_flush (st : ImplGroupState) (x : String) :
    (∃ gp ∈ st.impl_groups ++
        (if st.current_group ≠ [] then
          [(st.current_group, st.current_size)] else []), x ∈ gp.1) ↔
      (x ∈ st.current_group ∨ ∃ gp ∈ st.impl_groups, x ∈ gp.1) := by
  by_cases h : st.current_group = []
  · rw [if_neg (by simp [h])]
    simp [h]
  · rw [if_pos h]
    constructor
    · rintro ⟨gp, hgp, hx⟩
      rcases List.mem_append.mp hgp with hm | hm
      · exact Or.inr ⟨gp, hm, hx⟩
      · rcases List.mem_singleton.mp hm with rfl
        exact Or.inl hx
    · rintro (hx | ⟨gp, hgp, hx⟩)
      · exact ⟨(st.current_group, st.current_size),
          List.mem_append.mpr (Or.inr (by simp)), hx⟩
      · exact ⟨gp, List.mem_append.mpr (Or.inl hgp), hx⟩

theorem implPipeline_facts (changes : List Change) (implChanges : List String)
    (t : Nat) :
    (∀ x, (x ∈ (((implChanges.foldl
          (fun acc cid => assocAppend acc (subpackageOf changes cid) cid)
          []).mergeSort (fun a b => strLe a.1 b.1)).foldl
          (implGroupStep changes t)
          { impl_groups := [], current_group := [], current_size := 0 }).current_group ∨
        ∃ gp ∈ (((implChanges.foldl
          (fun acc cid => assocAppend acc (subpackageOf changes cid) cid)
          []).mergeSort (fun a b => strLe a.1 b.1)).foldl
          (implGroupStep changes t)
          { impl_groups := [], current_group := [], current_size := 0 }).impl_groups,
          x ∈ gp.1) ↔ x ∈ implChanges) ∧
    PairwiseDisjoint
      ((((implChanges.foldl
          (fun acc cid => assocAppend acc (subpackageOf changes cid) cid)
          []).mergeSort (fun a b => strLe a.1 b.1)).foldl
          (implGroupStep changes t)
          { impl_groups := [], current_group := [], current_size := 0 }).impl_groups.map
        Prod.fst ++
        [(((implChanges.foldl
          (fun acc cid => assocAppend acc (subpackageOf changes cid) cid)
          []).mergeSort (fun a b => strLe a.1 b.1)).foldl
          (implGroupStep changes t)
          { impl_groups := [], current_group := [], current_size := 0 }).current_group]) := by
  obtain ⟨hk, hgrp, hmem⟩ := assocFold_props changes implChanges []
    (by simp) (by simp)
  have hpairs := assoc_entries_pairwise changes
    (implChanges.foldl
      (fun acc cid => assocAppend acc (subpackageOf changes cid) cid) []) hk hgrp
  have hperm := List.mergeSort_perm
    (implChanges.foldl
      (fun acc cid => assocAppend acc (subpackageOf changes cid) cid) [])
    (fun a b => strLe a.1 b.1)
  have hsymm : Symmetric (fun (i1 i2 : String × List String) =>
      IdsDisjoint i1.2 i2.2) := fun a b h => idsDisjoint_symm _ _ h
  have hsorted_pair := (hperm.pairwise_iff (fun h => idsDisjoint_symm _ _ h)).mpr hpairs
  obtain ⟨r1, r2⟩ := implFold_props changes t
    ((implChanges.foldl
      (fun acc cid => assocAppend acc (subpackageOf changes cid) cid)
      []).mergeSort (fun a b => strLe a.1 b.1))
    { impl_groups := [], current_group := [], current_size := 0 }
    (by unfold PairwiseDisjoint; simp)
    (by
      intro i _
      constructor
      · exact idsDisjoint_nil_right i.2
      · intro l hl
        simp at hl)
    hsorted_pair
  refine ⟨?_, r1⟩
  intro x
  rw [r2 x]
  simp only [List.not_mem_nil, false_or]
  constructor
  · rintro (h | ⟨item, hitem, hx⟩)
    · obtain ⟨gp, hfalse, -⟩ := h
      exact hfalse.elim
    · have hh := (hmem x).mp ⟨item, hperm.mem_iff.mp hitem, hx⟩
      rcases hh with ⟨e, he, -⟩ | hh
      · exact absurd he (List.not_mem_nil e)
      · exact hh
  · intro h
    obtain ⟨e, he, hxe⟩ := (hmem x).mpr (Or.inr h)
    exact Or.inr ⟨e, hperm.mem_iff.mpr he, hxe⟩

theorem filter_partition4 (l : List String) (p1 p2 p3 : String → Bool)
    (x : String) :
    (((x ∈ l.filter p1 ∨ x ∈ l.filter (fun a => !p1 a && p2 a)) ∨
      x ∈ l.filter (fun a => !p1 a && !p2 a && !p3 a)) ∨
        x ∈ l.filter (fun a => !p1 a && !p2 a && p3 a)) ↔ x ∈ l := by
  simp only [List.mem_filter, Bool.and_eq_true, Bool.not_eq_true']
  constructor
  · rintro (((⟨h, -⟩ | ⟨h, -⟩) | ⟨h, -⟩) | ⟨h, -⟩)
    all_goals exact h
  · intro h
    cases h1 : p1 x <;> cases h2 : p2 x <;> cases h3 : p3 x <;>
      simp [h, h1, h2, h3]

theorem splitByLayer_mem (changes : List Change) (ids : List String) (t : Nat)
    (x : String) :
    (∃ c ∈ splitByLayer changes ids t, x ∈ c.change_ids) ↔
      x ∈ ids ∧ ∃ ch ∈ changes, ch.id = x := by
  unfold splitByLayer
  dsimp only
  rw [exists_mem_append_cand, exists_mem_append_cand, exists_mem_append_cand,
    exists_mem_optBlock, exists_mem_optBlock, exists_mem_optBlock,
    exists_mem_implBlock, exists_mem_flush,
    (implPipeline_facts changes _ t).1 x, filter_partition4]
  simp only [List.mem_filter, List.any_eq_true, decide_eq_true_eq]

theorem mem_optBlock_eq {c : PatchCandidate} {l : List String} {sz : Nat}
    (h : c ∈ (if l ≠ [] then
        [({ change_ids := l.dedup, size := sz, atomic := false } : PatchCandidate)]
      else [])) :
    c = { change_ids := l.dedup, size := sz, atomic := false } := by
  by_cases hl : l = []
  · rw [if_neg (by simp [hl])] at h
    exact absurd h (List.not_mem_nil c)
  · rw [if_pos hl] at h
    exact List.mem_singleton.mp h

theorem pairwise_optBlock (l : List String) (sz : Nat)
    (R : PatchCandidate → PatchCandidate → Prop) :
    (if l ≠ [] then
        [({ change_ids := l.dedup, size := sz, atomic := false } : PatchCandidate)]
      else []).Pairwise R := by
  by_cases hl : l = []
  · rw [if_neg (by simp [hl])]
    exact List.Pairwise.nil
  · rw [if_pos hl]
    exact List.pairwise_singleton R _

theorem implFinal_pairwise (st : ImplGroupState)
    (h : PairwiseDisjoint (st.impl_groups.map Prod.fst ++ [st.current_group])) :
    (st.impl_groups ++
      (if st.current_group ≠ [] then
        [(st.current_group, st.current_size)] else [])).Pairwise
      (fun g1 g2 => IdsDisjoint g1.1 g2.1) := by
  obtain ⟨h1, h2⟩ := (pairwiseDisjoint_snoc _ _).mp h
  have hbase : st.impl_groups.Pairwise (fun g1 g2 => IdsDisjoint g1.1 g2.1) :=
    List.pairwise_map.mp h1
  by_cases hc : st.current_group = []
  · rw [if_neg (by simp [hc])]
    simpa using hbase
  · rw [if_pos hc]
    rw [List.pairwise_append]
    refine ⟨hbase, List.pairwise_singleton _ _, ?_⟩
    intro a ha b hb
    rcases List.mem_singleton.mp hb with rfl
    exact h2 a.1 (List.mem_map.mpr ⟨a, ha, rfl⟩)

theorem pairwise_cand_of_groups (gps : List (List String × Nat))
    (h : gps.Pairwise (fun g1 g2 => IdsDisjoint g1.1 g2.1)) :
    (gps.map (fun grp =>
      ({ change_ids := grp.1.dedup, size := grp.2, atomic := false } :
        PatchCandidate))).Pairwise
      (fun c1 c2 => IdsDisjoint c1.change_ids c2.change_ids) := by
  rw [List.pairwise_map]
  refine h.imp ?_
  intro a b hab x hx hx2
  exact hab x (List.mem_dedup.mp hx) (List.mem_dedup.mp hx2)

theorem idsDisjoint_of_preds {P Q : String → Prop} (a b : List String)
    (ha : ∀ x ∈ a, P x) (hb : ∀ x ∈ b, Q x)
    (h : ∀ x, P x → Q x → False) : IdsDisjoint a b :=
  fun x hx hxb => h x (ha x hx) (hb x hxb)

theorem implBlock_mem_subset (changes : List Change) (implChanges : List String)
    (t : Nat) (c : PatchCandidate)
    (hc : c ∈ (((((implChanges.foldl
          (fun acc cid => assocAppend acc (subpackageOf changes cid) cid)
          []).mergeSort (fun a b => strLe a.1 b.1)).foldl
          (implGroupStep changes t)
          { impl_groups := [], current_group := [], current_size := 0 }).impl_groups ++
        (if (((implChanges.foldl
          (fun acc cid => assocAppend acc (subpackageOf changes cid) cid)
          []).mergeSort (fun a b => strLe a.1 b.1)).foldl
          (implGroupStep changes t)
          { impl_groups := [], current_group := [], current_size := 0 }).current_group ≠ [] then
          [((((implChanges.foldl
            (fun acc cid => assocAppend acc (subpackageOf changes cid) cid)
            []).mergeSort (fun a b => strLe a.1 b.1)).foldl
            (implGroupStep changes t)
            { impl_groups := [], current_group := [], current_size := 0 }).current_group,
            (((implChanges.foldl
            (fun acc cid => assocAppend acc (subpackageOf changes cid) cid)
            []).mergeSort (fun a b => strLe a.1 b.1)).foldl
            (implGroupStep changes t)
            { impl_groups := [], current_group := [], current_size := 0 }).current_size)]
          else [])).map (fun grp =>
        ({ change_ids := grp.1.dedup, size := grp.2, atomic := false } :
          PatchCandidate))))
    {x : String} (hx : x ∈ c.change_ids) : x ∈ implChanges := by
  obtain ⟨gp, hgp, rfl⟩ := List.mem_map.mp hc
  exact ((implPipeline_facts changes implChanges t).1 x).mp
    ((exists_mem_flush _ x).mp ⟨gp, hgp, List.mem_dedup.mp hx⟩)

theorem splitByLayer_nodup (changes : List Change) (ids : List String) (t : Nat) :
    ∀ c ∈ splitByLayer changes ids t, c.change_ids.Nodup := by
  unfold splitByLayer
  dsimp only
  intro c hc
  rcases List.mem_append.mp hc with h | hC
  · rcases List.mem_append.mp h with h2 | hI
    · rcases List.mem_append.mp h2 with hA | hB
      · rw [mem_optBlock_eq hA]
        exact List.nodup_dedup _
      · rw [mem_optBlock_eq hB]
        exact List.nodup_dedup _
    · obtain ⟨gp, -, rfl⟩ := List.mem_map.mp hI
      exact List.nodup_dedup _
  · rw [mem_optBlock_eq hC]
    exact List.nodup_dedup _

theorem splitByLayer_pairwise (changes : List Change) (ids : List String)
    (t : Nat) :
    (splitByLayer changes ids t).Pairwise
      (fun c1 c2 => IdsDisjoint c1.change_ids c2.change_ids) := by
  unfold splitByLayer
  dsimp only
  rw [List.pairwise_append, List.pairwise_append, List.pairwise_append]
  refine ⟨⟨⟨pairwise_optBlock _ _ _, pairwise_optBlock _ _ _, ?_⟩,
    pairwise_cand_of_groups _
      (implFinal_pairwise _ ((implPipeline_facts changes _ t).2)), ?_⟩,
    pairwise_optBlock _ _ _, ?_⟩
  · intro a ha b hb
    rw [mem_optBlock_eq ha, mem_optBlock_eq hb]
    intro x hx hxb
    simp only [List.mem_dedup, List.mem_filter, Bool.and_eq_true,
      Bool.not_eq_true', and_assoc] at hx hxb
    simp_all
  · intro a ha b hb
    rcases List.mem_append.mp ha with hA | hB
    · rw [mem_optBlock_eq hA]
      intro x hx hxb
      have h2 := implBlock_mem_subset changes _ t b hb hxb
      simp only [List.mem_dedup, List.mem_filter, Bool.and_eq_true,
        Bool.not_eq_true', and_assoc] at hx h2
      simp_all
    · rw [mem_optBlock_eq hB]
      intro x hx hxb
      have h2 := implBlock_mem_subset changes _ t b hb hxb
      simp only [List.mem_dedup, List.mem_filter, Bool.and_eq_true,
        Bool.not_eq_true', and_assoc] at hx h2
      simp_all
  · intro a ha b hb
    rw [mem_optBlock_eq hb]
    rcases List.mem_append.mp ha with hab | hI
    · rcases List.mem_append.mp hab with hA | hB
      · rw [mem_optBlock_eq hA]
        intro x hx hxb
        simp only [List.mem_dedup, List.mem_filter, Bool.and_eq_true,
          Bool.not_eq_true', and_assoc] at hx hxb
        simp_all
      · rw [mem_optBlock_eq hB]
        intro x hx hxb
        simp only [List.mem_dedup, List.mem_filter, Bool.and_eq_true,
          Bool.not_eq_true', and_assoc] at hx hxb
        simp_all
    · intro x hx hxb
      have h2 := implBlock_mem_subset changes _ t a hI hx
      clear hx ha hb hI a b
      simp only [List.mem_dedup, List.mem_filter, Bool.and_eq_true,
        Bool.not_eq_true', and_assoc] at h2 hxb
      simp_all

/-- size >= target*0.5 on naturals equals the cross-multiplied form used in
implGroupStep. -/
theorem half_target_iff (a t : Nat) :
    ((a : Rat) ≥ (t : Rat) * (1 / 2)) ↔ 2 * a ≥ t := by
  rw [ge_iff_le, ge_iff_le, ← Nat.cast_le (α := Rat)]
  push_cast
  constructor <;> intro h <;> linarith

/-- size > target*1.5 on naturals equals the cross-multiplied form used in
implGroupStep and canMergePatches. -/
theorem three_halves_iff (a t : Nat) :
    ((a : Rat) > (t : Rat) * (3 / 2)) ↔ 2 * a > 3 * t := by
  rw [gt_iff_lt, gt_iff_lt, ← Nat.cast_lt (α := Rat)]
  push_cast
  constructor <;> intro h <;> linarith

/-- count > total*0.7 on naturals equals the cross-multiplied form used in
preSortPatches. -/
theorem seven_tenths_iff (a m : Nat) :
    ((a : Rat) > (m : Rat) * (7 / 10)) ↔ 10 * a > 7 * m := by
  rw [gt_iff_lt, gt_iff_lt, ← Nat.cast_lt (α := Rat)]
  push_cast
  constructor <;> intro h <;> linarith

/-- The integer Jaccard test of canMergePatches coincides with comparing
calculateSemanticSimilarity against one half. -/
theorem similarity_half_iff (sems : List SemanticGroup) (c1 c2 : List String) :
    (calculateSemanticSimilarity sems c1 c2 > 1 / 2) ↔
      (¬ (semanticGroupIds sems c1 = [] ∨ semanticGroupIds sems c2 = []) ∧
        ¬ pySetUnion (semanticGroupIds sems c1) (semanticGroupIds sems c2) = [] ∧
        2 * ((semanticGroupIds sems c1).filter
            (fun gid => gid ∈ semanticGroupIds sems c2)).length >
          (pySetUnion (semanticGroupIds sems c1)
            (semanticGroupIds sems c2)).length) := by
  unfold calculateSemanticSimilarity
  dsimp only
  split_ifs with h1 h2
  · rw [Bool.or_eq_true] at h1
    simp only [decide_eq_true_eq] at h1
    constructor
    · intro h
      norm_num at h
    · rintro ⟨hn, -, -⟩
      exact absurd h1 hn
  · constructor
    · intro h
      norm_num at h
    · rintro ⟨-, hn, -⟩
      exact absurd h2 hn
  · rw [Bool.or_eq_true] at h1
    simp only [decide_eq_true_eq] at h1
    have hu : 0 < (pySetUnion (semanticGroupIds sems c1)
        (semanticGroupIds sems c2)).length := List.length_pos.mpr h2
    constructor
    · intro h
      refine ⟨h1, h2, ?_⟩
      rw [gt_iff_lt, lt_div_iff₀ (by exact_mod_cast hu), one_div,
        inv_mul_eq_div, div_lt_iff₀ (by norm_num : (0 : Rat) < 2)] at h
      have hn : (pySetUnion (semanticGroupIds sems c1)
          (semanticGroupIds sems c2)).length <
          ((semanticGroupIds sems c1).filter
            (fun gid => gid ∈ semanticGroupIds sems c2)).length * 2 := by
        exact_mod_cast h
      omega
    · rintro ⟨-, -, h⟩
      rw [gt_iff_lt, lt_div_iff₀ (by exact_mod_cast hu), one_div,
        inv_mul_eq_div, div_lt_iff₀ (by norm_num : (0 : Rat) < 2)]
      have hn : (pySetUnion (semanticGroupIds sems c1)
          (semanticGroupIds sems c2)).length <
          ((semanticGroupIds sems c1).filter
            (fun gid => gid ∈ semanticGroupIds sems c2)).length * 2 := by
        omega
      exact_mod_cast hn

theorem mem_pySetUnion {a b : List String} {x : String} :
    x ∈ pySetUnion a b ↔ x ∈ a ∨ x ∈ b := by
  simp only [pySetUnion, List.mem_append, List.mem_filter, decide_eq_true_eq]
  constructor
  · rintro (h | ⟨h, -⟩)
    exacts [Or.inl h, Or.inr h]
  · rintro (h | h)
    · exact Or.inl h
    · by_cases ha : x ∈ a
      · exact Or.inl ha
      · exact Or.inr ⟨h, ha⟩

theorem nodup_pySetUnion {a b : List String} (ha : a.Nodup) (hb : b.Nodup) :
    (pySetUnion a b).Nodup := by
  refine List.Nodup.append ha (hb.filter _) ?_
  intro x hx hx2
  simp only [List.mem_filter, decide_eq_true_eq] at hx2
  exact hx2.2 hx

theorem idsDisjoint_pySetUnion_left {a b d : List String}
    (h1 : IdsDisjoint a d) (h2 : IdsDisjoint b d) :
    IdsDisjoint (pySetUnion a b) d := by
  intro x hx
  rcases mem_pySetUnion.mp hx with h | h
  exacts [h1 x h, h2 x h]

theorem absorb_facts (g : DependencyGraph) (sems : List SemanticGroup)
    (t : Nat) :
    ∀ (rest : List PatchCandidate) (cur : PatchCandidate),
      cur.change_ids.Nodup → (∀ c ∈ rest, c.change_ids.Nodup) →
      PairwiseDisjoint (cur.change_ids :: rest.map PatchCandidate.change_ids) →
      ((∀ x, (x ∈ (absorbCandidates g sems t cur rest).1.change_ids ∨
            ∃ c ∈ (absorbCandidates g sems t cur rest).2, x ∈ c.change_ids) ↔
          (x ∈ cur.change_ids ∨ ∃ c ∈ rest, x ∈ c.change_ids)) ∧
        (absorbCandidates g sems t cur rest).1.change_ids.Nodup ∧
        (∀ c ∈ (absorbCandidates g sems t cur rest).2, c.change_ids.Nodup) ∧
        PairwiseDisjoint ((absorbCandidates g sems t cur rest).1.change_ids ::
          (absorbCandidates g sems t cur rest).2.map PatchCandidate.change_ids) ∧
        (absorbCandidates g sems t cur rest).2.Sublist rest) := by
  intro rest
  induction rest with
  | nil =>
      intro cur hc _ hd
      refine ⟨?_, hc, ?_, ?_, List.Sublist.refl _⟩
      · intro x
        simp [absorbCandidates]
      · intro c hcm
        simp [absorbCandidates] at hcm
      · simpa [absorbCandidates] using hd
  | cons c rest ih =>
      intro cur hc hr hd
      have hcnd : c.change_ids.Nodup := hr c (List.mem_cons_self c rest)
      have hrest : ∀ d ∈ rest, d.change_ids.Nodup :=
        fun d hdm => hr d (List.mem_cons_of_mem c hdm)
      obtain ⟨hcur_all, hd2⟩ := List.pairwise_cons.mp hd
      obtain ⟨hc_all, hrest_pair⟩ := List.pairwise_cons.mp hd2
      have hcur_c : IdsDisjoint cur.change_ids c.change_ids :=
        hcur_all c.change_ids (List.mem_cons_self _ _)
      have hcur_rest : ∀ l ∈ rest.map PatchCandidate.change_ids,
          IdsDisjoint cur.change_ids l :=
        fun l hl => hcur_all l (List.mem_cons_of_mem _ hl)
      by_cases hm : canMergePatches g sems t cur.change_ids c.change_ids = true
      · have hstep : absorbCandidates g sems t cur (c :: rest) =
            absorbCandidates g sems t
              { change_ids := pySetUnion cur.change_ids c.change_ids,
                size := cur.size + c.size,
                atomic := cur.atomic || c.atomic } rest := by
          simp only [absorbCandidates]
          rw [if_pos hm]
        rw [hstep]
        obtain ⟨hmem, hnd1, hnd2, hpair, hsub⟩ := ih
          { change_ids := pySetUnion cur.change_ids c.change_ids,
            size := cur.size + c.size, atomic := cur.atomic || c.atomic }
          (nodup_pySetUnion hc hcnd) hrest
          (List.Pairwise.cons (fun l hl => idsDisjoint_pySetUnion_left
            (hcur_rest l hl) (hc_all l hl)) hrest_pair)
        refine ⟨?_, hnd1, hnd2, hpair, hsub.trans (List.sublist_cons_self c rest)⟩
        intro x
        rw [hmem x]
        simp only [mem_pySetUnion, List.exists_mem_cons_iff]
        tauto
      · have hstep : absorbCandidates g sems t cur (c :: rest) =
            ((absorbCandidates g sems t cur rest).1,
              c :: (absorbCandidates g sems t cur rest).2) := by
          simp only [absorbCandidates]
          rw [if_neg hm]
        rw [hstep]
        obtain ⟨hmem, hnd1, hnd2, hpair, hsub⟩ := ih cur hc hrest
          (List.Pairwise.cons hcur_rest hrest_pair)
        obtain ⟨hq1_all, hq2_pair⟩ := List.pairwise_cons.mp hpair
        have hq1_sub : ∀ x ∈ (absorbCandidates g sems t cur rest).1.change_ids,
            x ∈ cur.change_ids ∨ ∃ d ∈ rest, x ∈ d.change_ids :=
          fun x hx => (hmem x).mp (Or.inl hx)
        refine ⟨?_, hnd1, ?_, ?_, ?_⟩
        · intro x
          simp only [List.exists_mem_cons_iff]
          rw [← or_assoc, or_comm (a := x ∈ (absorbCandidates g sems t cur rest).1.change_ids),
            or_assoc, hmem x]
          tauto
        · intro d hdm
          rcases List.mem_cons.mp hdm with rfl | hdm
          · exact hcnd
          · exact hnd2 d hdm
        · refine List.Pairwise.cons ?_ (List.Pairwise.cons ?_ hq2_pair)
          · intro l hl
            rw [List.map_cons] at hl
            rcases List.mem_cons.mp hl with rfl | hl
            · intro x hx hxc
              rcases hq1_sub x hx with hcur2 | ⟨d, hdm, hxd⟩
              · exact hcur_c x hcur2 hxc
              · exact hc_all d.change_ids (List.mem_map.mpr ⟨d, hdm, rfl⟩) x hxc hxd
            · exact hq1_all l hl
          · intro l hl
            obtain ⟨d, hdm, rfl⟩ := List.mem_map.mp hl
            exact hc_all d.change_ids
              (List.mem_map.mpr ⟨d, hsub.mem hdm, rfl⟩)
        · exact List.Sublist.cons₂ c hsub

theorem mergeAux_facts (g : DependencyGraph) (sems : List SemanticGroup)
    (t : Nat) :
    ∀ (fuel : Nat) (cs : List PatchCandidate),
      cs.length ≤ fuel → (∀ c ∈ cs, c.change_ids.Nodup) →
      PairwiseDisjoint (cs.map PatchCandidate.change_ids) →
      ((∀ x, (∃ c ∈ mergePatchesAux g sems t fuel cs, x ∈ c.change_ids) ↔
          (∃ c ∈ cs, x ∈ c.change_ids)) ∧
        (∀ c ∈ mergePatchesAux g sems t fuel cs, c.change_ids.Nodup) ∧
        PairwiseDisjoint
          ((mergePatchesAux g sems t fuel cs).map PatchCandidate.change_ids)) := by
  intro fuel
  induction fuel with
  | zero =>
      intro cs _ hnd hp
      exact ⟨fun x => Iff.rfl, hnd, hp⟩
  | succ fuel ih =>
      intro cs hlen hnd hp
      cases cs with
      | nil => exact ⟨fun x => Iff.rfl, hnd, hp⟩
      | cons c rest =>
          obtain ⟨hmem, hnd1, hnd2, hpair, hsub⟩ := absorb_facts g sems t rest c
            (hnd c (List.mem_cons_self c rest))
            (fun d hd => hnd d (List.mem_cons_of_mem c hd)) hp
          obtain ⟨hq1_all, hq2_pair⟩ := List.pairwise_cons.mp hpair
          have hlen2 : (absorbCandidates g sems t c rest).2.length ≤ fuel :=
            le_trans hsub.length_le (Nat.lt_succ_iff.mp
              (Nat.lt_of_lt_of_le (Nat.lt_succ_of_le (Nat.le_refl _))
                (by simpa using hlen)))
          obtain ⟨rmem, rnd, rpair⟩ := ih (absorbCandidates g sems t c rest).2
            hlen2 hnd2 hq2_pair
          refine ⟨?_, ?_, ?_⟩
          · intro x
            show (∃ d ∈ (absorbCandidates g sems t c rest).1 ::
                mergePatchesAux g sems t fuel
                  (absorbCandidates g sems t c rest).2, x ∈ d.change_ids) ↔ _
            rw [List.exists_mem_cons_iff, List.exists_mem_cons_iff, rmem x]
            exact hmem x
          · intro d hdm
            rcases List.mem_cons.mp hdm with rfl | hdm
            · exact hnd1
            · exact rnd d hdm
          · refine List.Pairwise.cons ?_ rpair
            intro l hl
            obtain ⟨d, hdm, rfl⟩ := List.mem_map.mp hl
            intro x hx hxd
            obtain ⟨e, hem, hxe⟩ := (rmem x).mp ⟨d, hdm, hxd⟩
            exact hq1_all e.change_ids (List.mem_map.mpr ⟨e, hem, rfl⟩) x hx hxe

theorem mergePatches_facts (g : DependencyGraph) (sems : List SemanticGroup)
    (t : Nat) (cs : List PatchCandidate)
    (hnd : ∀ c ∈ cs, c.change_ids.Nodup)
    (hp : PairwiseDisjoint (cs.map PatchCandidate.change_ids)) :
    (∀ x, (∃ c ∈ mergePatches g sems t cs, x ∈ c.change_ids) ↔
        (∃ c ∈ cs, x ∈ c.change_ids)) ∧
      (∀ c ∈ mergePatches g sems t cs, c.change_ids.Nodup) ∧
      PairwiseDisjoint
        ((mergePatches g sems t cs).map PatchCandidate.change_ids) :=
  mergeAux_facts g sems t cs.length cs (Nat.le_refl _) hnd hp

theorem pairwise_flatMap_cand (l : List AtomicGroup)
    (f : AtomicGroup → List PatchCandidate)
    (hin : ∀ g ∈ l, (f g).Pairwise
      (fun c1 c2 => IdsDisjoint c1.change_ids c2.change_ids))
    (hsub : ∀ g ∈ l, ∀ c ∈ f g, ∀ x ∈ c.change_ids, x ∈ g.change_ids)
    (hp : l.Pairwise (fun g1 g2 => IdsDisjoint g1.change_ids g2.change_ids)) :
    (l.flatMap f).Pairwise
      (fun c1 c2 => IdsDisjoint c1.change_ids c2.change_ids) := by
  induction l with
  | nil => exact List.Pairwise.nil
  | cons g l ih =>
      rw [List.flatMap_cons, List.pairwise_append]
      obtain ⟨hg_all, hp2⟩ := List.pairwise_cons.mp hp
      refine ⟨hin g (List.mem_cons_self g l), ?_, ?_⟩
      · exact ih (fun g2 hg2 => hin g2 (List.mem_cons_of_mem g hg2))
          (fun g2 hg2 => hsub g2 (List.mem_cons_of_mem g hg2)) hp2
      · intro c1 hc1 c2 hc2 x hx1 hx2
        obtain ⟨g2, hg2, hc2f⟩ := List.mem_flatMap.mp hc2
        exact hg_all g2 hg2 x
          (hsub g (List.mem_cons_self g l) c1 hc1 x hx1)
          (hsub g2 (List.mem_cons_of_mem g hg2) c2 hc2f x hx2)

theorem createFinalPatches_fields (changes : List Change)
    (enum : List String → List String) (ms : List PatchCandidate)
    (p : Patch) (hp : p ∈ createFinalPatches changes enum ms) :
    p.depends_on = [] ∧
      p.size_lines = (p.changes.map (changeSize changes)).sum ∧
      ∃ cand ∈ ms, p.changes = enum cand.change_ids := by
  obtain ⟨ic, hic, rfl⟩ := List.mem_map.mp hp
  refine ⟨rfl, rfl, ic.2, ?_, rfl⟩
  have : ic.2 ∈ ms.enum.map Prod.snd := List.mem_map_of_mem Prod.snd hic
  rwa [List.enum_map_snd] at this

theorem createFinalPatches_ids (changes : List Change)
    (enum : List String → List String) (ms : List PatchCandidate) :
    (createFinalPatches changes enum ms).map Patch.id = List.range ms.length := by
  rw [createFinalPatches, List.map_map]
  have h : ∀ ic ∈ ms.enum, (Patch.id ∘ fun p =>
      ({ id := p.1,
         name := (generatePatchName changes enum (enum p.2.change_ids)).1,
         description := (generatePatchName changes enum (enum p.2.change_ids)).2,
         changes := enum p.2.change_ids, depends_on := [],
         size_lines := ((enum p.2.change_ids).map (changeSize changes)).sum,
         warnings :=
           (if ((enum p.2.change_ids).map (changeSize changes)).sum > 500 then
             ["Large patch: " ++
               toString ((enum p.2.change_ids).map (changeSize changes)).sum ++
               " lines"] else []) ++
           (if (enum p.2.change_ids).length > 20 then
             ["Many changes: " ++ toString (enum p.2.change_ids).length ++
               " hunks"] else []) } : Patch)) ic = Prod.fst ic :=
    fun ic _ => rfl
  rw [List.map_congr_left h, List.enum_map_fst]

theorem createFinalPatches_length (changes : List Change)
    (enum : List String → List String) (ms : List PatchCandidate) :
    (createFinalPatches changes enum ms).length = ms.length := by
  rw [createFinalPatches, List.length_map, List.enum_length]

theorem createFinalPatches_mem (changes : List Change)
    (enum : List String → List String) (ms : List PatchCandidate)
    (henum : ∀ l, l.Nodup → (enum l).Perm l)
    (hnd : ∀ cand ∈ ms, cand.change_ids.Nodup) (x : String) :
    (∃ p ∈ createFinalPatches changes enum ms, x ∈ p.changes) ↔
      ∃ cand ∈ ms, x ∈ cand.change_ids := by
  constructor
  · rintro ⟨p, hp, hx⟩
    obtain ⟨-, -, cand, hcand, hch⟩ :=
      createFinalPatches_fields changes enum ms p hp
    rw [hch] at hx
    exact ⟨cand, hcand, ((henum cand.change_ids (hnd cand hcand)).mem_iff).mp hx⟩
  · rintro ⟨cand, hcand, hx⟩
    obtain ⟨i, hget⟩ := List.mem_iff_get.mp hcand
    have hic : (i.val, cand) ∈ ms.enum := by
      rw [List.mem_enum_iff_getElem?, ← hget]
      simp [List.getElem?_eq_getElem]
    refine ⟨_, List.mem_map_of_mem _ hic, ?_⟩
    show x ∈ enum cand.change_ids
    exact ((henum cand.change_ids (hnd cand hcand)).mem_iff).mpr hx

theorem createFinalPatches_pairwise (changes : List Change)
    (enum : List String → List String) (ms : List PatchCandidate)
    (henum : ∀ l, l.Nodup → (enum l).Perm l)
    (hnd : ∀ cand ∈ ms, cand.change_ids.Nodup)
    (hp : PairwiseDisjoint (ms.map PatchCandidate.change_ids)) :
    (createFinalPatches changes enum ms).Pairwise
      (fun p q => IdsDisjoint p.changes q.changes) := by
  rw [createFinalPatches, List.pairwise_map]
  have hms : ms.Pairwise
      (fun c d => IdsDisjoint c.change_ids d.change_ids) :=
    List.pairwise_map.mp hp
  have henumpair : ms.enum.Pairwise
      (fun a b => IdsDisjoint a.2.change_ids b.2.change_ids) := by
    have h3 : List.Pairwise IdsDisjoint
        (ms.enum.map (fun b => b.2.change_ids)) := by
      have hcomp : ms.enum.map (fun b => (b.2 : PatchCandidate).change_ids) =
          (ms.enum.map Prod.snd).map PatchCandidate.change_ids := by
        rw [List.map_map]
        rfl
      rw [hcomp, List.enum_map_snd]
      exact hp
    exact List.pairwise_map.mp h3
  refine List.Pairwise.imp_of_mem ?_ henumpair
  intro a b ha hb hab
  have hand : a.2.change_ids.Nodup := by
    have : a.2 ∈ ms.enum.map Prod.snd := List.mem_map_of_mem Prod.snd ha
    rw [List.enum_map_snd] at this
    exact hnd a.2 this
  have hbnd : b.2.change_ids.Nodup := by
    have : b.2 ∈ ms.enum.map Prod.snd := List.mem_map_of_mem Prod.snd hb
    rw [List.enum_map_snd] at this
    exact hnd b.2 this
  intro x hx hx2
  exact hab x (((henum a.2.change_ids hand).mem_iff).mp hx)
    (((henum b.2.change_ids hbnd).mem_iff).mp hx2)

theorem createFinalPatches_nodup (changes : List Change)
    (enum : List String → List String) (ms : List PatchCandidate)
    (henum : ∀ l, l.Nodup → (enum l).Perm l)
    (hnd : ∀ cand ∈ ms, cand.change_ids.Nodup) :
    ∀ p ∈ createFinalPatches changes enum ms, p.changes.Nodup := by
  intro p hp
  obtain ⟨-, -, cand, hcand, hch⟩ :=
    createFinalPatches_fields changes enum ms p hp
  rw [hch]
  exact ((henum cand.change_ids (hnd cand hcand)).nodup_iff).mpr (hnd cand hcand)

theorem atomicBlock_facts (changes : List Change) (t : Nat) (b : Bool)
    (grp : AtomicGroup)
    (hgu : ∀ cid ∈ grp.change_ids, ∃ c ∈ changes, c.id = cid) :
    (∀ x, (∃ c ∈ (if b then
        (if (splitByLayer changes grp.change_ids t).length > 1 then
          splitByLayer changes grp.change_ids t
        else [{ change_ids := grp.change_ids.dedup,
                size := (grp.change_ids.map (changeSize changes)).sum,
                atomic := true }])
      else [{ change_ids := grp.change_ids.dedup,
              size := (grp.change_ids.map (changeSize changes)).sum,
              atomic := true }]), x ∈ c.change_ids) ↔ x ∈ grp.change_ids) ∧
    (∀ c ∈ (if b then
        (if (splitByLayer changes grp.change_ids t).length > 1 then
          splitByLayer changes grp.change_ids t
        else [{ change_ids := grp.change_ids.dedup,
                size := (grp.change_ids.map (changeSize changes)).sum,
                atomic := true }])
      else [{ change_ids := grp.change_ids.dedup,
              size := (grp.change_ids.map (changeSize changes)).sum,
              atomic := true }]), c.change_ids.Nodup) ∧
    (if b then
        (if (splitByLayer changes grp.change_ids t).length > 1 then
          splitByLayer changes grp.change_ids t
        else [{ change_ids := grp.change_ids.dedup,
                size := (grp.change_ids.map (changeSize changes)).sum,
                atomic := true }])
      else [{ change_ids := grp.change_ids.dedup,
              size := (grp.change_ids.map (changeSize changes)).sum,
              atomic := true }]).Pairwise
      (fun c1 c2 => IdsDisjoint c1.change_ids c2.change_ids) := by
  have hsingle : ∀ x, (∃ c ∈ [({ change_ids := grp.change_ids.dedup,
                                 size := (grp.change_ids.map (changeSize changes)).sum,
                                 atomic := true } : PatchCandidate)],
      x ∈ c.change_ids) ↔ x ∈ grp.change_ids := by
    intro x
    simp [List.mem_dedup]
  have hlayer : ∀ x,
      (∃ c ∈ splitByLayer changes grp.change_ids t, x ∈ c.change_ids) ↔
        x ∈ grp.change_ids := by
    intro x
    rw [splitByLayer_mem]
    constructor
    · rintro ⟨h, -⟩
      exact h
    · intro h
      exact ⟨h, hgu x h⟩
  cases b with
  | false =>
      rw [if_neg (by simp)]
      refine ⟨hsingle, ?_, List.pairwise_singleton _ _⟩
      intro c hc
      rw [List.mem_singleton] at hc
      subst hc
      exact List.nodup_dedup _
  | true =>
      rw [if_pos rfl]
      by_cases hlen : (splitByLayer changes grp.change_ids t).length > 1
      · rw [if_pos hlen]
        exact ⟨hlayer, splitByLayer_nodup changes grp.change_ids t,
          splitByLayer_pairwise changes grp.change_ids t⟩
      · rw [if_neg hlen]
        refine ⟨hsingle, ?_, List.pairwise_singleton _ _⟩
        intro c hc
        rw [List.mem_singleton] at hc
        subst hc
        exact List.nodup_dedup _

theorem loose_pairwise (changes : List Change) (q : Change → Bool)
    (hnodupids : (changes.map Change.id).Nodup) :
    ((changes.filter q).map (fun c =>
      ({ change_ids := [c.id], size := c.added_lines + c.deleted_lines,
         atomic := false } : PatchCandidate))).Pairwise
      (fun c1 c2 => IdsDisjoint c1.change_ids c2.change_ids) := by
  rw [List.pairwise_map]
  have h1 : changes.Pairwise (fun a b => a.id ≠ b.id) :=
    List.pairwise_map.mp hnodupids
  have h2 : (changes.filter q).Pairwise (fun a b => a.id ≠ b.id) :=
    h1.sublist (List.filter_sublist changes)
  refine h2.imp ?_
  intro a b hne x hx hx2
  rw [List.mem_singleton] at hx hx2
  exact hne (hx.symm.trans hx2)

theorem preSort_facts (g : DependencyGraph) (changes : List Change)
    (ags : List AtomicGroup) (sems : List SemanticGroup) (t : Nat)
    (enum : List String → List String)
    (henum : ∀ l, l.Nodup → (enum l).Perm l)
    (hnodupids : (changes.map Change.id).Nodup)
    (hgdisj : ags.Pairwise
      (fun g1 g2 => IdsDisjoint g1.change_ids g2.change_ids))
    (pre : List Patch)
    (hpre : preSortPatches g changes ags sems t enum = some pre) :
    (∀ x, (∃ p ∈ pre, x ∈ p.changes) ↔ x ∈ changes.map Change.id) ∧
      (∀ p ∈ pre, p.changes.Nodup) ∧
      pre.Pairwise (fun p q => IdsDisjoint p.changes q.changes) ∧
      pre.map Patch.id = List.range pre.length ∧
      (∀ p ∈ pre, p.depends_on = [] ∧
        p.size_lines = (p.changes.map (changeSize changes)).sum) := by
  unfold preSortPatches at hpre
  by_cases hg : (ags.all fun grp => grp.change_ids.all
      fun cid => changes.any fun c => c.id = cid) = true
  swap
  · rw [if_neg hg] at hpre
    exact absurd hpre (by simp)
  rw [if_pos hg] at hpre
  dsimp only at hpre
  rw [Option.some_inj] at hpre
  subst hpre
  set inf := decide (10 * (changes.filter
    (fun c => c.type = ChangeType.add)).length > 7 * changes.length) with hinf
  set assigned := ags.flatMap AtomicGroup.change_ids with hassigned
  set unassigned := changes.filter (fun c => c.id ∉ assigned) with hunassigned
  set AC := ags.flatMap (fun group =>
    if inf && decide ((group.change_ids.map (changeSize changes)).sum > t * 2) then
      (if (splitByLayer changes group.change_ids t).length > 1 then
        splitByLayer changes group.change_ids t
      else [{ change_ids := group.change_ids.dedup,
              size := (group.change_ids.map (changeSize changes)).sum,
              atomic := true }])
    else [{ change_ids := group.change_ids.dedup,
            size := (group.change_ids.map (changeSize changes)).sum,
            atomic := true }]) with hAC
  set LC := (if inf && decide (unassigned.length > 5) then
    splitByLayer changes (unassigned.map Change.id) t else []) with hLC
  set assigned2 := assigned ++ LC.flatMap PatchCandidate.change_ids
    with hassigned2
  set OC := (changes.filter (fun c => c.id ∉ assigned2)).map (fun c =>
    ({ change_ids := [c.id], size := c.added_lines + c.deleted_lines,
       atomic := false } : PatchCandidate)) with hOC
  have hgu : ∀ grp ∈ ags, ∀ cid ∈ grp.change_ids,
      ∃ c ∈ changes, c.id = cid := by
    intro grp hgrp cid hcid
    have h1 := List.all_eq_true.mp hg grp hgrp
    have h2 := List.all_eq_true.mp h1 cid hcid
    rw [List.any_eq_true] at h2
    obtain ⟨c, hc, hcid2⟩ := h2
    exact ⟨c, hc, of_decide_eq_true hcid2⟩
  have hABfacts := fun grp (hgrp : grp ∈ ags) =>
    atomicBlock_facts changes t
      (inf && decide ((grp.change_ids.map (changeSize changes)).sum > t * 2))
      grp (hgu grp hgrp)
  have hACnodup : ∀ c ∈ AC, c.change_ids.Nodup := by
    intro c hc
    rw [hAC] at hc
    obtain ⟨grp, hgrp, hcf⟩ := List.mem_flatMap.mp hc
    exact (hABfacts grp hgrp).2.1 c hcf
  have hACsub : ∀ c ∈ AC, ∀ x ∈ c.change_ids, x ∈ assigned := by
    intro c hc x hx
    rw [hAC] at hc
    obtain ⟨grp, hgrp, hcf⟩ := List.mem_flatMap.mp hc
    have hxg := ((hABfacts grp hgrp).1 x).mp ⟨c, hcf, hx⟩
    rw [hassigned]
    exact List.mem_flatMap.mpr ⟨grp, hgrp, hxg⟩
  have hACpair : AC.Pairwise
      (fun c1 c2 => IdsDisjoint c1.change_ids c2.change_ids) := by
    rw [hAC]
    refine pairwise_flatMap_cand ags _ ?_ ?_ hgdisj
    · intro grp hgrp
      exact (hABfacts grp hgrp).2.2
    · intro grp hgrp c hcf x hx
      exact ((hABfacts grp hgrp).1 x).mp ⟨c, hcf, hx⟩
  have hLCnodup : ∀ c ∈ LC, c.change_ids.Nodup := by
    intro c hc
    rw [hLC] at hc
    split at hc
    · exact splitByLayer_nodup changes _ t c hc
    · exact absurd hc (List.not_mem_nil c)
  have hLCpair : LC.Pairwise
      (fun c1 c2 => IdsDisjoint c1.change_ids c2.change_ids) := by
    rw [hLC]
    split
    · exact splitByLayer_pairwise changes _ t
    · exact List.Pairwise.nil
  have hLCsub : ∀ c ∈ LC, ∀ x ∈ c.change_ids,
      x ∈ unassigned.map Change.id := by
    intro c hc x hx
    rw [hLC] at hc
    split at hc
    · exact ((splitByLayer_mem changes (unassigned.map Change.id) t x).mp
        ⟨c, hc, hx⟩).1
    · exact absurd hc (List.not_mem_nil c)
  have hunassigned_mem : ∀ x, x ∈ unassigned.map Change.id →
      x ∈ changes.map Change.id ∧ x ∉ assigned := by
    intro x hx
    rw [hunassigned] at hx
    obtain ⟨c, hcf, rfl⟩ := List.mem_map.mp hx
    rw [List.mem_filter] at hcf
    obtain ⟨hc, hna⟩ := hcf
    refine ⟨List.mem_map.mpr ⟨c, hc, rfl⟩, ?_⟩
    simpa using hna
  have hOCnodup : ∀ c ∈ OC, c.change_ids.Nodup := by
    intro c hc
    rw [hOC] at hc
    obtain ⟨ch, -, rfl⟩ := List.mem_map.mp hc
    exact List.nodup_singleton _
  have hOCpair : OC.Pairwise
      (fun c1 c2 => IdsDisjoint c1.change_ids c2.change_ids) := by
    rw [hOC]
    exact loose_pairwise changes _ hnodupids
  have hOCsub : ∀ c ∈ OC, ∀ x ∈ c.change_ids,
      x ∈ changes.map Change.id ∧ x ∉ assigned2 := by
    intro c hc x hx
    rw [hOC] at hc
    obtain ⟨ch, hchf, rfl⟩ := List.mem_map.mp hc
    simp only [List.mem_singleton] at hx
    subst hx
    rw [List.mem_filter] at hchf
    exact ⟨List.mem_map.mpr ⟨ch, hchf.1, rfl⟩, by simpa using hchf.2⟩
  have hCmem : ∀ x, (∃ c ∈ AC ++ LC ++ OC, x ∈ c.change_ids) ↔
      x ∈ changes.map Change.id := by
    intro x
    constructor
    · rintro ⟨c, hc, hx⟩
      rcases List.mem_append.mp hc with h2 | hOCm
      · rcases List.mem_append.mp h2 with hACm | hLCm
        · have hxa := hACsub c hACm x hx
          rw [hassigned] at hxa
          obtain ⟨grp, hgrp, hxg⟩ := List.mem_flatMap.mp hxa
          obtain ⟨ch, hch, hchid⟩ := hgu grp hgrp x hxg
          exact List.mem_map.mpr ⟨ch, hch, hchid⟩
        · exact (hunassigned_mem x (hLCsub c hLCm x hx)).1
      · exact (hOCsub c hOCm x hx).1
    · intro hxm
      by_cases hxa : x ∈ assigned
      · rw [hassigned] at hxa
        obtain ⟨grp, hgrp, hxg⟩ := List.mem_flatMap.mp hxa
        obtain ⟨c, hcf, hcx⟩ := ((hABfacts grp hgrp).1 x).mpr hxg
        refine ⟨c, List.mem_append.mpr (Or.inl (List.mem_append.mpr
          (Or.inl ?_))), hcx⟩
        rw [hAC]
        exact List.mem_flatMap.mpr ⟨grp, hgrp, hcf⟩
      · by_cases hxl : x ∈ LC.flatMap PatchCandidate.change_ids
        · obtain ⟨c, hcl, hcx⟩ := List.mem_flatMap.mp hxl
          exact ⟨c, List.mem_append.mpr (Or.inl (List.mem_append.mpr
            (Or.inr hcl))), hcx⟩
        · obtain ⟨ch, hch, hchid⟩ := List.mem_map.mp hxm
          subst hchid
          have hnass2 : ch.id ∉ assigned2 := by
            rw [hassigned2]
            intro hmem2
            rcases List.mem_append.mp hmem2 with h | h
            · exact hxa h
            · exact hxl h
          refine ⟨{ change_ids := [ch.id],
                    size := ch.added_lines + ch.deleted_lines,
                    atomic := false },
            List.mem_append.mpr (Or.inr ?_), List.mem_singleton.mpr rfl⟩
          rw [hOC]
          exact List.mem_map.mpr ⟨ch,
            List.mem_filter.mpr ⟨hch, by simpa using hnass2⟩, rfl⟩
  have hCnodup : ∀ c ∈ AC ++ LC ++ OC, c.change_ids.Nodup := by
    intro c hc
    rcases List.mem_append.mp hc with h2 | h
    · rcases List.mem_append.mp h2 with h | h
      exacts [hACnodup c h, hLCnodup c h]
    · exact hOCnodup c h
  have hCpair : PairwiseDisjoint
      ((AC ++ LC ++ OC).map PatchCandidate.change_ids) := by
    refine List.pairwise_map.mpr ?_
    rw [List.pairwise_append]
    refine ⟨?_, hOCpair, ?_⟩
    · rw [List.pairwise_append]
      refine ⟨hACpair, hLCpair, ?_⟩
      intro c1 h1 c2 h2 x hx hx2
      exact (hunassigned_mem x (hLCsub c2 h2 x hx2)).2 (hACsub c1 h1 x hx)
    · intro c1 h1 c2 h2 x hx hx2
      have h3 := hOCsub c2 h2 x hx2
      rcases List.mem_append.mp h1 with h | h
      · exact h3.2 (by
          rw [hassigned2]
          exact List.mem_append.mpr (Or.inl (hACsub c1 h x hx)))
      · exact h3.2 (by
          rw [hassigned2]
          exact List.mem_append.mpr (Or.inr (List.mem_flatMap.mpr ⟨c1, h, hx⟩)))
  obtain ⟨hMmem, hMnodup, hMpair⟩ :=
    mergePatches_facts g sems t (AC ++ LC ++ OC) hCnodup hCpair
  refine ⟨?_, createFinalPatches_nodup changes enum _ henum hMnodup,
    createFinalPatches_pairwise changes enum _ henum hMnodup hMpair, ?_, ?_⟩
  · intro x
    rw [createFinalPatches_mem changes enum _ henum hMnodup x, hMmem x]
    exact hCmem x
  · rw [createFinalPatches_ids, createFinalPatches_length]
  · intro p hp
    obtain ⟨h1, h2, -⟩ := createFinalPatches_fields changes enum _ p hp
    exact ⟨h1, h2⟩

theorem find_by_id (patches : List Patch)
    (hnodup : (patches.map Patch.id).Nodup) (q : Patch) (hq : q ∈ patches) :
    patches.find? (fun p => p.id = q.id) = some q := by
  induction patches with
  | nil => exact absurd hq (List.not_mem_nil q)
  | cons p ps ih =>
      rw [List.map_cons, List.nodup_cons] at hnodup
      rcases List.mem_cons.mp hq with rfl | hq2
      · rw [List.find?_cons_of_pos _ (by simp)]
      · have hne : p.id ≠ q.id := fun h =>
          hnodup.1 (h ▸ List.mem_map_of_mem Patch.id hq2)
        rw [List.find?_cons_of_neg _ (by simp [hne])]
        exact ih hnodup.2 hq2

theorem renumber_map_id (patches : List Patch)
    (prunedEdges : List (Nat × Nat)) (sortedIds : List Nat) :
    (renumberPatches patches prunedEdges sortedIds).map Patch.id =
      List.range sortedIds.length := by
  rw [renumberPatches, List.map_map]
  have h : ∀ sid ∈ sortedIds.enum, (Patch.id ∘ fun sid =>
      { (patches.find? (fun p => p.id = sid.2)).getD defaultPatch with
        id := sid.1,
        depends_on :=
          ((((prunedEdges.filter (fun e => e.2 = sid.2)).map
            (fun e => e.1)).filter (fun od => od ∈ sortedIds)).map
            (fun od => sortedIds.indexOf od)) }) sid = Prod.fst sid :=
    fun sid _ => rfl
  rw [List.map_congr_left h, List.enum_map_fst]

theorem renumber_length (patches : List Patch)
    (prunedEdges : List (Nat × Nat)) (sortedIds : List Nat) :
    (renumberPatches patches prunedEdges sortedIds).length =
      sortedIds.length := by
  rw [renumberPatches, List.length_map, List.enum_length]

theorem renumber_changes_perm (patches : List Patch)
    (prunedEdges : List (Nat × Nat)) (sortedIds : List Nat)
    (hperm : sortedIds.Perm (patches.map Patch.id))
    (hnodup : (patches.map Patch.id).Nodup) :
    ((renumberPatches patches prunedEdges sortedIds).map Patch.changes).Perm
      (patches.map Patch.changes) := by
  rw [renumberPatches, List.map_map]
  have h1 : ∀ sid ∈ sortedIds.enum, (Patch.changes ∘ fun sid =>
      { (patches.find? (fun p => p.id = sid.2)).getD defaultPatch with
        id := sid.1,
        depends_on :=
          ((((prunedEdges.filter (fun e => e.2 = sid.2)).map
            (fun e => e.1)).filter (fun od => od ∈ sortedIds)).map
            (fun od => sortedIds.indexOf od)) }) sid =
      ((fun oid => ((patches.find? (fun p => p.id = oid)).getD
        defaultPatch).changes) ∘ Prod.snd) sid :=
    fun sid _ => rfl
  rw [List.map_congr_left h1, ← List.map_map, List.enum_map_snd]
  refine (hperm.map _).trans ?_
  rw [List.map_map]
  refine List.Perm.of_eq (List.map_congr_left ?_)
  intro p hp
  show ((patches.find? (fun q => q.id = p.id)).getD defaultPatch).changes =
    p.changes
  rw [find_by_id patches hnodup p hp]
  rfl

theorem renumber_elem_bounds (patches : List Patch)
    (prunedEdges : List (Nat × Nat)) (sortedIds : List Nat)
    (htopo : IsTopoOrder prunedEdges sortedIds) (hnodup : sortedIds.Nodup)
    (p : Patch) (hp : p ∈ renumberPatches patches prunedEdges sortedIds) :
    p.id < sortedIds.length ∧
      ∀ d ∈ p.depends_on, d < sortedIds.length ∧ d < p.id := by
  rw [renumberPatches] at hp
  obtain ⟨sid, hsid, rfl⟩ := List.mem_map.mp hp
  obtain ⟨hlt, hget⟩ :=
    List.getElem?_eq_some.mp (List.mem_enum_iff_getElem?.mp hsid)
  have hidx : sortedIds.indexOf sid.2 = sid.1 := by
    have h2 := List.indexOf_getElem hnodup sid.1 hlt
    rwa [hget] at h2
  refine ⟨hlt, ?_⟩
  intro d hd
  simp only at hd
  obtain ⟨od, hodf, rfl⟩ := List.mem_map.mp hd
  rw [List.mem_filter] at hodf
  obtain ⟨hod_old, hod_mem⟩ := hodf
  have hodm : od ∈ sortedIds := of_decide_eq_true hod_mem
  refine ⟨List.indexOf_lt_length.mpr hodm, ?_⟩
  obtain ⟨e, hef, he⟩ := List.mem_map.mp hod_old
  rw [List.mem_filter] at hef
  obtain ⟨hep, he2⟩ := hef
  have he2b : e.2 = sid.2 := of_decide_eq_true he2
  have hlt2 := htopo e hep
  rw [he, he2b, hidx] at hlt2
  exact hlt2

theorem renumber_lookup (patches : List Patch)
    (prunedEdges : List (Nat × Nat)) (sortedIds : List Nat)
    (hnodupp : (patches.map Patch.id).Nodup) (q : Patch) (hq : q ∈ patches)
    (hqin : q.id ∈ sortedIds) :
    ∃ p ∈ renumberPatches patches prunedEdges sortedIds,
      p.changes = q.changes ∧ p.id = sortedIds.indexOf q.id := by
  have hlt : sortedIds.indexOf q.id < sortedIds.length :=
    List.indexOf_lt_length.mpr hqin
  have hen : (sortedIds.indexOf q.id, q.id) ∈ sortedIds.enum := by
    rw [List.mem_enum_iff_getElem?, List.getElem?_eq_getElem hlt]
    rw [List.getElem_indexOf]
  refine ⟨_, List.mem_map_of_mem _ hen, ?_, rfl⟩
  show ((patches.find? (fun p => p.id = q.id)).getD defaultPatch).changes =
    q.changes
  rw [find_by_id patches hnodupp q hq]
  rfl

theorem mem_enum_of_mem {α : Type} (l : List α) (a : α) (ha : a ∈ l) :
    ∃ i, (i, a) ∈ l.enum := by
  obtain ⟨i, hget⟩ := List.mem_iff_get.mp ha
  refine ⟨i.val, ?_⟩
  rw [List.mem_enum_iff_getElem?, ← hget]
  simp [List.getElem?_eq_getElem]

theorem patchDependsOn_of_dep (g : DependencyGraph) (P1 P2 : Patch)
    (src tgt : String) (hs : src ∈ P2.changes) (ht : tgt ∈ P1.changes)
    (hdep : (src, tgt) ∈ graphEdges g.dependencies) :
    patchDependsOn g P1 P2 = true := by
  rw [patchDependsOn, List.any_eq_true]
  refine ⟨tgt, ht, ?_⟩
  rw [List.any_eq_true]
  refine ⟨src, hs, ?_⟩
  rw [decide_eq_true_eq]
  rw [getDependenciesForChange, if_pos ?_]
  · exact List.mem_map.mpr ⟨(src, tgt),
      List.mem_filter.mpr ⟨hdep, by simp⟩, rfl⟩
  · rw [graphNodes, List.mem_dedup]
    refine List.mem_append.mpr (Or.inr ?_)
    rw [graphEdges] at hdep
    obtain ⟨d, hd, hde⟩ := List.mem_map.mp hdep
    refine List.mem_flatMap.mpr ⟨d, hd, ?_⟩
    have h2 : d.target = tgt := congrArg Prod.snd hde
    simp [h2]

theorem patchGraphEdge_intro (g : DependencyGraph) (patches : List Patch)
    (i j : Nat) (P1 P2 : Patch)
    (hi : (i, P1) ∈ patches.enum) (hj : (j, P2) ∈ patches.enum) (hij : i ≠ j)
    (hdep : patchDependsOn g P1 P2 = true) :
    (P1.id, P2.id) ∈ patchGraphEdges g patches := by
  rw [patchGraphEdges]
  refine List.mem_flatMap.mpr ⟨(i, P1), hi, ?_⟩
  refine List.mem_map.mpr ⟨(j, P2), List.mem_filter.mpr ⟨hj, ?_⟩, rfl⟩
  simp [hij, hdep]

theorem forall2_map_map {α β : Type} (l : List α) (f g : α → β)
    (R : β → β → Prop) (h : ∀ a ∈ l, R (f a) (g a)) :
    List.Forall₂ R (l.map f) (l.map g) := by
  induction l with
  | nil => exact List.Forall₂.nil
  | cons a l ih =>
      exact List.Forall₂.cons (h a (List.mem_cons_self a l))
        (ih fun b hb => h b (List.mem_cons_of_mem a hb))

theorem patchUpToOrder_refl (p : Patch) : PatchUpToOrder p p :=
  ⟨rfl, rfl, List.Perm.refl _, rfl, rfl, rfl⟩

theorem forall2_find_patch (l₁ l₂ : List Patch)
    (h : List.Forall₂ PatchUpToOrder l₁ l₂) (oid : Nat) :
    Option.Rel PatchUpToOrder (l₁.find? (fun p => p.id = oid))
      (l₂.find? (fun p => p.id = oid)) := by
  induction h with
  | nil => exact Option.Rel.none
  | cons hab hl ih =>
      rename_i a b l₁ l₂
      by_cases hid : a.id = oid
      · rw [List.find?_cons_of_pos _ (by simp [hid]),
          List.find?_cons_of_pos _ (by simp [hab.1 ▸ hid])]
        exact Option.Rel.some hab
      · rw [List.find?_cons_of_neg _ (by simp [hid]),
          List.find?_cons_of_neg _ (by simp [hab.1 ▸ hid])]
        exact ih

theorem generatePatchDescription_perm (changes : List Change)
    (l₁ l₂ : List String) (h : l₁.Perm l₂) :
    generatePatchDescription changes l₁ = generatePatchDescription changes l₂ := by
  unfold generatePatchDescription
  dsimp only
  have hmap := h.map (changeLookup changes)
  have h1 : ∀ q : Change → Bool,
      ((l₁.map (changeLookup changes)).filter q).length =
      ((l₂.map (changeLookup changes)).filter q).length :=
    fun q => (hmap.filter q).length_eq
  rw [h1, h1, h1]

theorem createFinal_upToOrder (changes : List Change)
    (enum₁ enum₂ : List String → List String)
    (henum₁ : ∀ l, l.Nodup → (enum₁ l).Perm l)
    (henum₂ : ∀ l, l.Nodup → (enum₂ l).Perm l)
    (ms : List PatchCandidate) (hnd : ∀ cand ∈ ms, cand.change_ids.Nodup) :
    List.Forall₂ PatchUpToOrder (createFinalPatches changes enum₁ ms)
      (createFinalPatches changes enum₂ ms) := by
  rw [createFinalPatches, createFinalPatches]
  refine forall2_map_map ms.enum _ _ _ ?_
  intro ic hic
  have hmem : ic.2 ∈ ms := by
    have h2 : ic.2 ∈ ms.enum.map Prod.snd := List.mem_map_of_mem Prod.snd hic
    rwa [List.enum_map_snd] at h2
  have hch : (enum₁ ic.2.change_ids).Perm (enum₂ ic.2.change_ids) :=
    (henum₁ _ (hnd ic.2 hmem)).trans (henum₂ _ (hnd ic.2 hmem)).symm
  have hsz : ((enum₁ ic.2.change_ids).map (changeSize changes)).sum =
      ((enum₂ ic.2.change_ids).map (changeSize changes)).sum :=
    (hch.map (changeSize changes)).sum_eq
  have hln : (enum₁ ic.2.change_ids).length = (enum₂ ic.2.change_ids).length :=
    hch.length_eq
  have hdesc : (generatePatchName changes enum₁ (enum₁ ic.2.change_ids)).2 =
      (generatePatchName changes enum₂ (enum₂ ic.2.change_ids)).2 := by
    show "no_llm_" ++ generatePatchDescription changes (enum₁ ic.2.change_ids) =
      "no_llm_" ++ generatePatchDescription changes (enum₂ ic.2.change_ids)
    rw [generatePatchDescription_perm changes _ _ hch]
  exact ⟨rfl, hdesc, hch, rfl, hsz, by dsimp only; rw [hsz, hln]⟩

theorem renumber_upToOrder (l₁ l₂ : List Patch)
    (prunedEdges : List (Nat × Nat)) (sortedIds : List Nat)
    (h : List.Forall₂ PatchUpToOrder l₁ l₂) :
    List.Forall₂ PatchUpToOrder (renumberPatches l₁ prunedEdges sortedIds)
      (renumberPatches l₂ prunedEdges sortedIds) := by
  rw [renumberPatches, renumberPatches]
  refine forall2_map_map sortedIds.enum _ _ _ ?_
  intro sid _
  have hrel := forall2_find_patch l₁ l₂ h sid.2
  revert hrel
  generalize l₁.find? (fun p => p.id = sid.2) = o₁
  generalize l₂.find? (fun p => p.id = sid.2) = o₂
  intro hrel
  cases hrel with
  | none => exact patchUpToOrder_refl _
  | some hq =>
      rename_i q₁ q₂
      exact ⟨rfl, hq.2.1, hq.2.2.1, rfl, hq.2.2.2.2.1, hq.2.2.2.2.2⟩

theorem absorb_nodup (g : DependencyGraph) (sems : List SemanticGroup)
    (t : Nat) :
    ∀ (rest : List PatchCandidate) (cur : PatchCandidate),
      cur.change_ids.Nodup → (∀ c ∈ rest, c.change_ids.Nodup) →
      ((absorbCandidates g sems t cur rest).1.change_ids.Nodup ∧
        ∀ c ∈ (absorbCandidates g sems t cur rest).2, c.change_ids.Nodup) := by
  intro rest
  induction rest with
  | nil =>
      intro cur hc _
      refine ⟨hc, ?_⟩
      intro c hcm
      simp [absorbCandidates] at hcm
  | cons c rest ih =>
      intro cur hc hr
      have hcnd : c.change_ids.Nodup := hr c (List.mem_cons_self c rest)
      have hrest : ∀ d ∈ rest, d.change_ids.Nodup :=
        fun d hdm => hr d (List.mem_cons_of_mem c hdm)
      by_cases hm : canMergePatches g sems t cur.change_ids c.change_ids = true
      · have hstep : absorbCandidates g sems t cur (c :: rest) =
            absorbCandidates g sems t
              { change_ids := pySetUnion cur.change_ids c.change_ids,
                size := cur.size + c.size,
                atomic := cur.atomic || c.atomic } rest := by
          simp only [absorbCandidates]
          rw [if_pos hm]
        rw [hstep]
        exact ih _ (nodup_pySetUnion hc hcnd) hrest
      · have hstep : absorbCandidates g sems t cur (c :: rest) =
            ((absorbCandidates g sems t cur rest).1,
              c :: (absorbCandidates g sems t cur rest).2) := by
          simp only [absorbCandidates]
          rw [if_neg hm]
        rw [hstep]
        obtain ⟨h1, h2⟩ := ih cur hc hrest
        refine ⟨h1, ?_⟩
        intro d hdm
        rcases List.mem_cons.mp hdm with rfl | hdm
        · exact hcnd
        · exact h2 d hdm

theorem mergeAux_nodup (g : DependencyGraph) (sems : List SemanticGroup)
    (t : Nat) :
    ∀ (fuel : Nat) (cs : List PatchCandidate),
      (∀ c ∈ cs, c.change_ids.Nodup) →
      ∀ c ∈ mergePatchesAux g sems t fuel cs, c.change_ids.Nodup := by
  intro fuel
  induction fuel with
  | zero => intro cs hnd; exact hnd
  | succ fuel ih =>
      intro cs hnd
      cases cs with
      | nil => intro c hc; simp [mergePatchesAux] at hc
      | cons c rest =>
          obtain ⟨h1, h2⟩ := absorb_nodup g sems t rest c
            (hnd c (List.mem_cons_self c rest))
            (fun d hd => hnd d (List.mem_cons_of_mem c hd))
          intro d hd
          rcases List.mem_cons.mp hd with rfl | hd2
          · exact h1
          · exact ih (absorbCandidates g sems t c rest).2 h2 d hd2

theorem renumber_changes_size (patches : List Patch)
    (prunedEdges : List (Nat × Nat)) (sortedIds : List Nat) (p : Patch)
    (hp : p ∈ renumberPatches patches prunedEdges sortedIds) :
    (p.changes = [] ∧ p.size_lines = 0) ∨
      ∃ q ∈ patches, p.changes = q.changes ∧ p.size_lines = q.size_lines := by
  rw [renumberPatches] at hp
  obtain ⟨sid, hsid, rfl⟩ := List.mem_map.mp hp
  dsimp only
  cases hfind : patches.find? (fun q => q.id = sid.2) with
  | none =>
      refine Or.inl ?_
      simp [hfind, defaultPatch]
  | some q =>
      refine Or.inr ⟨q, List.mem_of_find?_eq_some hfind, ?_, ?_⟩ <;>
        simp [hfind]

theorem preSort_decompose (g : DependencyGraph) (changes : List Change)
    (ags : List AtomicGroup) (sems : List SemanticGroup) (t : Nat)
    (enum : List String → List String) (pre : List Patch)
    (hpre : preSortPatches g changes ags sems t enum = some pre) :
    ∃ ms : List PatchCandidate, (∀ cand ∈ ms, cand.change_ids.Nodup) ∧
      pre = createFinalPatches changes enum ms ∧
      ∀ enum2, preSortPatches g changes ags sems t enum2 =
        some (createFinalPatches changes enum2 ms) := by
  unfold preSortPatches at hpre ⊢
  by_cases hg : (ags.all fun grp => grp.change_ids.all
      fun cid => changes.any fun c => c.id = cid) = true
  swap
  · rw [if_neg hg] at hpre
    exact absurd hpre (by simp)
  rw [if_pos hg] at hpre
  dsimp only at hpre
  rw [Option.some_inj] at hpre
  have hgu : ∀ grp ∈ ags, ∀ cid ∈ grp.change_ids,
      ∃ c ∈ changes, c.id = cid := by
    intro grp hgrp cid hcid
    have h1 := List.all_eq_true.mp hg grp hgrp
    have h2 := List.all_eq_true.mp h1 cid hcid
    rw [List.any_eq_true] at h2
    obtain ⟨c, hc, hcid2⟩ := h2
    exact ⟨c, hc, of_decide_eq_true hcid2⟩
  refine ⟨_, ?_, hpre.symm, ?_⟩
  · intro cand hcand
    refine mergeAux_nodup g sems t _ _ ?_ cand hcand
    intro c hc
    rcases List.mem_append.mp hc with h2 | h
    · rcases List.mem_append.mp h2 with h | h
      · obtain ⟨grp, hgrp, hcf⟩ := List.mem_flatMap.mp h
        exact (atomicBlock_facts changes t _ grp (hgu grp hgrp)).2.1 c hcf
      · revert h
        split
        · intro h
          exact splitByLayer_nodup changes _ t c h
        · intro h
          exact absurd h (List.not_mem_nil c)
    · obtain ⟨ch, -, rfl⟩ := List.mem_map.mp h
      exact List.nodup_singleton _
  · intro enum2
    rw [if_pos hg]

/-- Claim C10: every patch emitted by split_into_patches has a duplicate-free
change list, and its size_lines equals the sum of added plus deleted lines
over exactly those changes: _create_final_patches recomputes the size from
the merged distinct-change set, discarding the additive (and potentially
double-counting) size accumulated during merging; the topological renumbering
copies changes and size unchanged. -/
theorem c10_size_recomputed (g : DependencyGraph) (changes : List Change)
    (ags : List AtomicGroup) (sems : List SemanticGroup) (t : Nat)
    (enum : List String → List String) (sortedIds : List Nat)
    (prunedEdges : List (Nat × Nat))
    (henum : ∀ l, l.Nodup → (enum l).Perm l) (out : List Patch)
    (hout : splitIntoPatches g changes ags sems t enum sortedIds prunedEdges =
      some out) :
    ∀ p ∈ out, p.changes.Nodup ∧
      p.size_lines = (p.changes.map (changeSize changes)).sum := by
  rw [splitIntoPatches] at hout
  cases hpre : preSortPatches g changes ags sems t enum with
  | none => rw [hpre] at hout; exact absurd hout (by simp)
  | some pre =>
      rw [hpre] at hout
      rw [Option.map_some', Option.some_inj] at hout
      obtain ⟨ms, hnd, hpre2, -⟩ :=
        preSort_decompose g changes ags sems t enum pre hpre
      subst hpre2
      intro p hp
      rw [← hout] at hp
      rcases renumber_changes_size _ prunedEdges sortedIds p hp with
        ⟨h1, h2⟩ | ⟨q, hq, h1, h2⟩
      · rw [h1, h2]
        exact ⟨List.nodup_nil, rfl⟩
      · obtain ⟨-, hsz, cand, hcand, hch⟩ :=
          createFinalPatches_fields changes enum ms q hq
        constructor
        · rw [h1, hch]
          exact ((henum cand.change_ids (hnd cand hcand)).nodup_iff).mpr
            (hnd cand hcand)
        · rw [h2, h1, hsz]

/-- Claim C2: after the ID renumbering at the end of the topological sort,
the emitted patches carry ids 0..N-1 in output order, and every depends_on
entry is a valid patch id strictly smaller than the patch's own id, provided
the networkx node order is a topological order of the (possibly
cycle-pruned) patch graph, which holds on every non-exceptional path. -/
theorem c2_renumbering (g : DependencyGraph) (changes : List Change)
    (ags : List AtomicGroup) (sems : List SemanticGroup) (t : Nat)
    (enum : List String → List String) (sortedIds : List Nat)
    (prunedEdges : List (Nat × Nat))
    (htopo : IsTopoOrder prunedEdges sortedIds)
    (hnodup : sortedIds.Nodup) (out : List Patch)
    (hout : splitIntoPatches g changes ags sems t enum sortedIds prunedEdges =
      some out) :
    out.map Patch.id = List.range out.length ∧
      ∀ p ∈ out, ∀ d ∈ p.depends_on, d < out.length ∧ d < p.id := by
  rw [splitIntoPatches] at hout
  cases hpre : preSortPatches g changes ags sems t enum with
  | none => rw [hpre] at hout; exact absurd hout (by simp)
  | some pre =>
      rw [hpre] at hout
      rw [Option.map_some', Option.some_inj] at hout
      rw [← hout]
      constructor
      · rw [sortPatchesTopologically, renumber_map_id, renumber_length]
      · intro p hp d hd
        have hb := renumber_elem_bounds pre prunedEdges sortedIds htopo
          hnodup p hp
        rw [sortPatchesTopologically, renumber_length]
        exact ⟨(hb.2 d hd).1, (hb.2 d hd).2⟩

/-- Claim C3, amended: the patches returned by split_into_patches cover
exactly the input change ids, each patch's change list is duplicate-free,
and the change sets of distinct patches are pairwise disjoint, PROVIDED the
input change ids are distinct and the atomic groups are pairwise disjoint;
when a change id occurs in two atomic groups that are never merged, it is
emitted in two patches (see the counterexample). -/
theorem c3_coverage_disjoint (g : DependencyGraph) (changes : List Change)
    (ags : List AtomicGroup) (sems : List SemanticGroup) (t : Nat)
    (enum : List String → List String) (sortedIds : List Nat)
    (prunedEdges : List (Nat × Nat))
    (henum : ∀ l, l.Nodup → (enum l).Perm l)
    (hnodupids : (changes.map Change.id).Nodup)
    (hgdisj : ags.Pairwise
      (fun g1 g2 => IdsDisjoint g1.change_ids g2.change_ids))
    (pre : List Patch)
    (hpre : preSortPatches g changes ags sems t enum = some pre)
    (hperm : sortedIds.Perm (pre.map Patch.id)) (out : List Patch)
    (hout : splitIntoPatches g changes ags sems t enum sortedIds prunedEdges =
      some out) :
    (∀ x, (∃ p ∈ out, x ∈ p.changes) ↔ x ∈ changes.map Change.id) ∧
      (∀ p ∈ out, p.changes.Nodup) ∧
      out.Pairwise (fun p q => IdsDisjoint p.changes q.changes) := by
  rw [splitIntoPatches, hpre, Option.map_some', Option.some_inj] at hout
  obtain ⟨hcov, hnod, hpair, hids, -⟩ :=
    preSort_facts g changes ags sems t enum henum hnodupids hgdisj pre hpre
  have hnodupp : (pre.map Patch.id).Nodup := by
    rw [hids]
    exact List.nodup_range _
  have hchperm : ((renumberPatches pre prunedEdges sortedIds).map
      Patch.changes).Perm (pre.map Patch.changes) :=
    renumber_changes_perm pre prunedEdges sortedIds hperm hnodupp
  rw [← hout, sortPatchesTopologically]
  refine ⟨?_, ?_, ?_⟩
  · intro x
    constructor
    · rintro ⟨p, hp, hx⟩
      have h1 := hchperm.mem_iff.mp (List.mem_map_of_mem Patch.changes hp)
      obtain ⟨q, hq, hqc⟩ := List.mem_map.mp h1
      refine (hcov x).mp ⟨q, hq, ?_⟩
      rw [hqc]
      exact hx
    · intro hx
      obtain ⟨q, hq, hqx⟩ := (hcov x).mpr hx
      have h1 := hchperm.mem_iff.mpr (List.mem_map_of_mem Patch.changes hq)
      obtain ⟨p, hp, hpc⟩ := List.mem_map.mp h1
      refine ⟨p, hp, ?_⟩
      rw [hpc]
      exact hqx
  · intro p hp
    have h1 := hchperm.mem_iff.mp (List.mem_map_of_mem Patch.changes hp)
    obtain ⟨q, hq, hqc⟩ := List.mem_map.mp h1
    rw [← hqc]
    exact hnod q hq
  · have h2 : List.Pairwise IdsDisjoint (pre.map Patch.changes) :=
      List.pairwise_map.mpr hpair
    have h3 : List.Pairwise IdsDisjoint
        ((renumberPatches pre prunedEdges sortedIds).map Patch.changes) :=
      (hchperm.pairwise_iff (fun h => idsDisjoint_symm _ _ h)).mpr h2
    exact List.pairwise_map.mp h3

/-- Claim C9, amended: with the LLM disabled, determinism holds only for
the patch-splitting phase and only up to set-iteration order: two
split_into_patches runs on the SAME parsed changes, dependencies, atomic
groups and semantic groups, differing only in the string-set iteration
order inside the splitter, produce patches with equal ids, descriptions,
dependency lists, sizes and warnings whose change lists are permutations
of each other (change-list order and heuristic names may still differ, so
even these runs are not byte-identical).  This does not extend to whole
split_changes runs: the earlier phases are themselves set-iteration
sensitive - phase 1 appends package dependencies while iterating a set and
phase 3's greedy symbol grouping decides semantic-group MEMBERSHIP in
iteration order - and the counterexample shows two memberships such a
reordering can produce for which the splitter emits materially different
patches (one patch versus two). -/
theorem c9_deterministic_up_to_set_order (g : DependencyGraph)
    (changes : List Change) (ags : List AtomicGroup)
    (sems : List SemanticGroup) (t : Nat)
    (enum₁ enum₂ : List String → List String) (sortedIds : List Nat)
    (prunedEdges : List (Nat × Nat))
    (henum₁ : ∀ l, l.Nodup → (enum₁ l).Perm l)
    (henum₂ : ∀ l, l.Nodup → (enum₂ l).Perm l) (out₁ out₂ : List Patch)
    (h₁ : splitIntoPatches g changes ags sems t enum₁ sortedIds prunedEdges =
      some out₁)
    (h₂ : splitIntoPatches g changes ags sems t enum₂ sortedIds prunedEdges =
      some out₂) :
    List.Forall₂ PatchUpToOrder out₁ out₂ := by
  rw [splitIntoPatches] at h₁ h₂
  cases hpre₁ : preSortPatches g changes ags sems t enum₁ with
  | none => rw [hpre₁] at h₁; exact absurd h₁ (by simp)
  | some pre₁ =>
      rw [hpre₁, Option.map_some', Option.some_inj] at h₁
      cases hpre₂ : preSortPatches g changes ags sems t enum₂ with
      | none => rw [hpre₂] at h₂; exact absurd h₂ (by simp)
      | some pre₂ =>
          rw [hpre₂, Option.map_some', Option.some_inj] at h₂
          obtain ⟨ms, hnd, he1, hall⟩ :=
            preSort_decompose g changes ags sems t enum₁ pre₁ hpre₁
          have he2 : pre₂ = createFinalPatches changes enum₂ ms := by
            have := hall enum₂
            rw [hpre₂, Option.some_inj] at this
            exact this
          subst he1
          subst he2
          rw [← h₁, ← h₂, sortPatchesTopologically, sortPatchesTopologically]
          exact renumber_upToOrder _ _ prunedEdges sortedIds
            (createFinal_upToOrder changes enum₁ enum₂ henum₁ henum₂ ms hnd)

/-- Claim C1, amended: for a dependency (source, target) whose endpoint
changes land in two distinct patches, the source-depends-on-target relation
induces the patch-graph edge (patch(target).id, patch(source).id), and
whenever that edge survives cycle breaking (in particular always when the
patch graph is acyclic), the renumbered patch containing the target has a
strictly smaller id than the renumbered patch containing the source; when
the patch graph is cyclic the edge can be pruned and the ordering can fail
(see the counterexample). -/
theorem c1_prereq_patch_precedes (g : DependencyGraph) (patches : List Patch)
    (prunedEdges : List (Nat × Nat)) (sortedIds : List Nat) (Pt Ps : Patch)
    (src tgt : String) (hpt : Pt ∈ patches) (hps : Ps ∈ patches)
    (hne : Pt ≠ Ps) (ht : tgt ∈ Pt.changes) (hs : src ∈ Ps.changes)
    (hdep : (src, tgt) ∈ graphEdges g.dependencies)
    (hnodupp : (patches.map Patch.id).Nodup)
    (hperm : sortedIds.Perm (patches.map Patch.id))
    (htopo : IsTopoOrder prunedEdges sortedIds)
    (hprune : (Pt.id, Ps.id) ∈ prunedEdges) :
    (Pt.id, Ps.id) ∈ patchGraphEdges g patches ∧
      ∃ qt ∈ sortPatchesTopologically patches prunedEdges sortedIds,
        ∃ qs ∈ sortPatchesTopologically patches prunedEdges sortedIds,
          qt.changes = Pt.changes ∧ qs.changes = Ps.changes ∧
            qt.id < qs.id := by
  obtain ⟨i, hi⟩ := mem_enum_of_mem patches Pt hpt
  obtain ⟨j, hj⟩ := mem_enum_of_mem patches Ps hps
  have hij : i ≠ j := by
    intro hij
    subst hij
    have h1 := List.mem_enum_iff_getElem?.mp hi
    have h2 := List.mem_enum_iff_getElem?.mp hj
    rw [h1] at h2
    exact hne (Option.some_inj.mp h2)
  have hedge := patchGraphEdge_intro g patches i j Pt Ps hi hj hij
    (patchDependsOn_of_dep g Pt Ps src tgt hs ht hdep)
  refine ⟨hedge, ?_⟩
  have hsortnd : sortedIds.Nodup := (hperm.nodup_iff).mpr hnodupp
  obtain ⟨qt, hqt, hqtc, hqti⟩ := renumber_lookup patches prunedEdges
    sortedIds hnodupp Pt hpt
    (hperm.mem_iff.mpr (List.mem_map_of_mem Patch.id hpt))
  obtain ⟨qs, hqs, hqsc, hqsi⟩ := renumber_lookup patches prunedEdges
    sortedIds hnodupp Ps hps
    (hperm.mem_iff.mpr (List.mem_map_of_mem Patch.id hps))
  refine ⟨qt, hqt, qs, hqs, hqtc, hqsc, ?_⟩
  rw [hqti, hqsi]
  exact htopo (Pt.id, Ps.id) hprune

/-- Claim C1, counterexample: the similarity merge places a1 and a2 in one
patch and b (with a2 -> b -> a1 dependencies) in another, so the patch graph
is the 2-cycle (0,1),(1,0); whichever edge cycle breaking removes, one
dependency ends up with the target's patch numbered after the source's
patch, violating the claimed ordering. -/
theorem c1_cycle_counterexample :
    patchGraphEdges c1Graph ((preSortPatches c1Graph c1Changes [] c1Sem 50
      (fun l => l)).getD []) = [(0, 1), (1, 0)] ∧
    ("a2.py:hunk_0", "b.py:hunk_0") ∈ graphEdges c1Graph.dependencies ∧
    ((splitIntoPatches c1Graph c1Changes [] c1Sem 50 (fun l => l) [0, 1]
      [(0, 1)]).getD []).map (fun p => (p.id, p.changes, p.depends_on)) =
      [(0, ["a1.py:hunk_0", "a2.py:hunk_0"], []),
       (1, ["b.py:hunk_0"], [0])] ∧
    (∃ pt ∈ (splitIntoPatches c1Graph c1Changes [] c1Sem 50 (fun l => l)
        [0, 1] [(0, 1)]).getD [],
      ∃ ps ∈ (splitIntoPatches c1Graph c1Changes [] c1Sem 50 (fun l => l)
        [0, 1] [(0, 1)]).getD [],
        "b.py:hunk_0" ∈ pt.changes ∧ "a2.py:hunk_0" ∈ ps.changes ∧
          ps.id < pt.id) ∧
    ("b.py:hunk_0", "a1.py:hunk_0") ∈ graphEdges c1Graph.dependencies ∧
    ((splitIntoPatches c1Graph c1Changes [] c1Sem 50 (fun l => l) [1, 0]
      [(1, 0)]).getD []).map (fun p => (p.id, p.changes, p.depends_on)) =
      [(0, ["b.py:hunk_0"], []),
       (1, ["a1.py:hunk_0", "a2.py:hunk_0"], [0])] ∧
    (∃ pt ∈ (splitIntoPatches c1Graph c1Changes [] c1Sem 50 (fun l => l)
        [1, 0] [(1, 0)]).getD [],
      ∃ ps ∈ (splitIntoPatches c1Graph c1Changes [] c1Sem 50 (fun l => l)
        [1, 0] [(1, 0)]).getD [],
        "a1.py:hunk_0" ∈ pt.changes ∧ "b.py:hunk_0" ∈ ps.changes ∧
          ps.id < pt.id) := by
  decide

/-- Claim C1, witness for the amended theorem: two single-change patches
with the dependency d -> c; the patch holding c gets the smaller id. -/
theorem c1_prereq_patch_precedes_witness :
    (w1P0.id, w1P1.id) ∈ patchGraphEdges w1Graph w1Patches ∧
      ∃ qt ∈ sortPatchesTopologically w1Patches [(0, 1)] [0, 1],
        ∃ qs ∈ sortPatchesTopologically w1Patches [(0, 1)] [0, 1],
          qt.changes = w1P0.changes ∧ qs.changes = w1P1.changes ∧
            qt.id < qs.id :=
  c1_prereq_patch_precedes w1Graph w1Patches [(0, 1)] [0, 1] w1P0 w1P1
    "d.py:hunk_0" "c.py:hunk_0" (by decide) (by decide) (by decide)
    (by decide) (by decide) (by decide) (by decide) (by decide)
    (by unfold IsTopoOrder; decide) (by decide)

/-- Claim C2, witness: on the two-patch run with the edge (0,1) the ids come
out as 0,1 and the only dependency entry is 0 < 1. -/
theorem c2_renumbering_witness :
    IsTopoOrder [(0, 1)] [0, 1] ∧
      (((splitIntoPatches w1Graph w1Graph.changes [] [] 50 (fun l => l)
        [0, 1] [(0, 1)]).getD []).map Patch.id =
        List.range ((splitIntoPatches w1Graph w1Graph.changes [] [] 50
          (fun l => l) [0, 1] [(0, 1)]).getD []).length ∧
      ∀ p ∈ (splitIntoPatches w1Graph w1Graph.changes [] [] 50 (fun l => l)
        [0, 1] [(0, 1)]).getD [], ∀ d ∈ p.depends_on,
          d < ((splitIntoPatches w1Graph w1Graph.changes [] [] 50
            (fun l => l) [0, 1] [(0, 1)]).getD []).length ∧ d < p.id) :=
  ⟨by unfold IsTopoOrder; decide,
    c2_renumbering w1Graph w1Graph.changes [] [] 50 (fun l => l) [0, 1]
      [(0, 1)] (by unfold IsTopoOrder; decide) (by decide) _ (by decide)⟩

/-- Claim C3, counterexample: with the overlapping atomic groups x, cd, ce
the change c.py:hunk_0 is emitted in two distinct patches (the ce group is
absorbed into the x patch by similarity while cd survives separately), so the
claimed pairwise disjointness fails for overlapping atomic groups. -/
theorem c3_overlap_counterexample :
    ((splitIntoPatches c3Graph c3Changes c3Atomic c3Sem 50 (fun l => l)
      [0, 1] []).getD []).map Patch.changes =
      [["x.py:hunk_0", "c.py:hunk_0", "e.py:hunk_0"],
       ["c.py:hunk_0", "d.py:hunk_0"]] ∧
    (((splitIntoPatches c3Graph c3Changes c3Atomic c3Sem 50 (fun l => l)
      [0, 1] []).getD []).flatMap Patch.changes).count "c.py:hunk_0" = 2 ∧
    (∃ p ∈ (splitIntoPatches c3Graph c3Changes c3Atomic c3Sem 50 (fun l => l)
        [0, 1] []).getD [],
      ∃ q ∈ (splitIntoPatches c3Graph c3Changes c3Atomic c3Sem 50
        (fun l => l) [0, 1] []).getD [],
        p.id ≠ q.id ∧ "c.py:hunk_0" ∈ p.changes ∧
          "c.py:hunk_0" ∈ q.changes) := by
  decide

/-- Claim C3, witness for the amended theorem: four independent changes with
no atomic groups are emitted as four singleton patches covering exactly the
input ids, pairwise disjoint. -/
theorem c3_coverage_disjoint_witness :
    splitIntoPatches c3Graph c3Changes [] [] 50 (fun l => l) [0, 1, 2, 3]
      [] = some ((splitIntoPatches c3Graph c3Changes [] [] 50 (fun l => l)
        [0, 1, 2, 3] []).getD []) ∧
    ((∀ x, (∃ p ∈ (splitIntoPatches c3Graph c3Changes [] [] 50 (fun l => l)
        [0, 1, 2, 3] []).getD [], x ∈ p.changes) ↔
          x ∈ c3Changes.map Change.id) ∧
      (∀ p ∈ (splitIntoPatches c3Graph c3Changes [] [] 50 (fun l => l)
        [0, 1, 2, 3] []).getD [], p.changes.Nodup) ∧
      ((splitIntoPatches c3Graph c3Changes [] [] 50 (fun l => l)
        [0, 1, 2, 3] []).getD []).Pairwise
        (fun p q => IdsDisjoint p.changes q.changes)) :=
  ⟨by decide,
    c3_coverage_disjoint c3Graph c3Changes [] [] 50 (fun l => l) [0, 1, 2, 3]
      [] (fun l _ => List.Perm.refl l) (by decide) List.Pairwise.nil
      ((preSortPatches c3Graph c3Changes [] [] 50 (fun l => l)).getD [])
      (by decide) (by decide) _ (by decide)⟩

/-- Claim C9, counterexample, in two parts.  First, even with identical
phase 1-3 outputs, two runs differing only in the string-set iteration
order inside the splitter (modelled by the identity and reversing
enumerations) emit the same patch with its change list in two different
orders, so the outputs are not byte-identical.  Second, the hash seed also
reaches the splitter through its inputs: phase 3's greedy symbol grouping
assigns semantic-group membership in set-iteration order (and phase 1
appends package dependencies while iterating a set), and the two
memberships c9Sem and c9SemB that such a reordering can produce make the
similarity merge emit one patch versus two - materially different patch
compositions, not merely reordered lists. -/
theorem c9_enum_order_counterexample :
    ((splitIntoPatches c9Graph c9Changes [] c9Sem 50 (fun l => l) [0]
      []).getD []).map Patch.changes = [["f.py:hunk_0", "f.py:hunk_1"]] ∧
    ((splitIntoPatches c9Graph c9Changes [] c9Sem 50
      (fun l => List.reverse l) [0] []).getD []).map Patch.changes =
      [["f.py:hunk_1", "f.py:hunk_0"]] ∧
    splitIntoPatches c9Graph c9Changes [] c9Sem 50 (fun l => l) [0] [] ≠
      splitIntoPatches c9Graph c9Changes [] c9Sem 50
        (fun l => List.reverse l) [0] [] ∧
    ((splitIntoPatches c9Graph c9Changes [] c9SemB 50 (fun l => l) [0, 1]
      []).getD []).map Patch.changes =
      [["f.py:hunk_0"], ["f.py:hunk_1"]] ∧
    ((splitIntoPatches c9Graph c9Changes [] c9Sem 50 (fun l => l) [0]
      []).getD []).length = 1 ∧
    ((splitIntoPatches c9Graph c9Changes [] c9SemB 50 (fun l => l) [0, 1]
      []).getD []).length = 2 := by
  decide

/-- Claim C9, witness for the amended theorem: the identity and reversing
enumerations yield patches equal up to change-list order. -/
theorem c9_deterministic_witness :
    splitIntoPatches c9Graph c9Changes [] c9Sem 50 (fun l => l) [0] [] =
      some ((splitIntoPatches c9Graph c9Changes [] c9Sem 50 (fun l => l) [0]
        []).getD []) ∧
    splitIntoPatches c9Graph c9Changes [] c9Sem 50 (fun l => List.reverse l)
      [0] [] = some ((splitIntoPatches c9Graph c9Changes [] c9Sem 50
        (fun l => List.reverse l) [0] []).getD []) ∧
    List.Forall₂ PatchUpToOrder
      ((splitIntoPatches c9Graph c9Changes [] c9Sem 50 (fun l => l) [0]
        []).getD [])
      ((splitIntoPatches c9Graph c9Changes [] c9Sem 50
        (fun l => List.reverse l) [0] []).getD []) :=
  ⟨by decide, by decide,
    c9_deterministic_up_to_set_order c9Graph c9Changes [] c9Sem 50
      (fun l => l) (fun l => List.reverse l) [0] []
      (fun l _ => List.Perm.refl l) (fun l _ => l.reverse_perm) _ _
      (by decide) (by decide)⟩

/-- Claim C10, witness: on the two-change merged patch the emitted size 7
equals 3 + 4, the sum over the distinct changes. -/
theorem c10_size_recomputed_witness :
    splitIntoPatches c9Graph c9Changes [] c9Sem 50 (fun l => l) [0] [] =
      some ((splitIntoPatches c9Graph c9Changes [] c9Sem 50 (fun l => l) [0]
        []).getD []) ∧
    ∀ p ∈ (splitIntoPatches c9Graph c9Changes [] c9Sem 50 (fun l => l) [0]
      []).getD [], p.changes.Nodup ∧
        p.size_lines = (p.changes.map (changeSize c9Changes)).sum :=
  ⟨by decide,
    c10_size_recomputed c9Graph c9Changes [] c9Sem 50 (fun l => l) [0] []
      (fun l _ => List.Perm.refl l) _ (by decide)⟩
